import Mathlib

/-!
Shallow embedding of the layered-circuit scheduler and evaluator of
`phantom-zone` (`src/frontend/src/layered_circuit.rs`, together with the
older copy `src/src/layered_circuit.rs`), and theorems checking the
specification's claims about them.

Machine integers (`usize`) are modelled as `Nat`; the mutable
`gate_deps_remaining` counters are modelled as `Int` so that decrementing a
counter that already reached zero does not make it zero again (matching the
wrapping `usize` subtraction, under which a counter that passed zero can
never compare equal to zero again).  Panics (`assert!`, `unwrap`) are
modelled as `none` / `Except.error`.
-/

inductive BinaryOp : Type
  | And | Or | Xor
  deriving DecidableEq, Repr

inductive UnaryOp : Type
  | Not | Copy
  deriving DecidableEq, Repr

inductive Gate : Type
  | Unary (op : UnaryOp) (in_ : Nat) (out : Nat)
  | Binary (op : BinaryOp) (a : Nat) (b : Nat) (out : Nat)
  deriving DecidableEq, Repr

instance : Inhabited Gate := ⟨Gate.Unary UnaryOp.Not 0 0⟩

/-- `Gate::inputs` — the operand wires, in source order. -/
def Gate.inputs : Gate → List Nat
  | .Unary _ i _ => [i]
  | .Binary _ a b _ => [a, b]

/-- `Gate::out` — the output wire. -/
def Gate.out : Gate → Nat
  | .Unary _ _ o => o
  | .Binary _ _ _ o => o

structure Layer : Type where
  gates : List Gate
  prunes : List Nat
  deriving DecidableEq, Repr

instance : Inhabited Layer := ⟨⟨[], []⟩⟩

structure CircuitLabel : Type where
  name : String
  start : Nat
  bits : Nat
  deriving DecidableEq, Repr

structure LayeredCircuit : Type where
  wire_count : Nat
  inputs : List CircuitLabel
  outputs : List CircuitLabel
  layers : List Layer

/-- The `input_wire_to_gates` entry for wire `w`: the indices of the gates
reading `w`, in ascending gate order, with one occurrence per operand slot
equal to `w` (the Rust code builds this map by scanning the gates in order
and pushing `gate_i` once per matching operand). -/
def readers (gates : List Gate) (w : Nat) : List Nat :=
  (List.range gates.length).flatMap
    (fun i => List.replicate ((gates.getD i default).inputs.count w) i)

/-- Mutable state of one `separate_layers` round: the dependency counters,
the inclusion flags, and the `next_layer` / `next_wires_resolved`
accumulators.  Scheduled gates are recorded by index (`newGates`); the layer
stores the corresponding gate values (`mkLayer`), exactly as the Rust code
pushes `gates[gate_i].clone()`. -/
structure SLState : Type where
  deps : List Int
  included : List Bool
  newGates : List Nat
  prunes : List Nat
  nextResolved : List Nat

/-- The prune test for an operand wire `w` of a just-scheduled gate: `w` is
not a declared output and every gate reading `w` is already included. -/
def pruneOk (gates : List Gate) (ow : List Nat) (included : List Bool) (w : Nat) : Bool :=
  !(ow.contains w) && ((readers gates w).all (fun k => included.getD k false))

/-- Processing one entry `j` of `input_wire_to_gates[wire]`: decrement the
dependency counter and, on reaching zero, schedule gate `j`: mark it
included, emit its output into the next frontier, prune operands whose
readers are now all included, and append the gate to the layer. -/
def stepReader (gates : List Gate) (ow : List Nat) (st : SLState) (j : Nat) : SLState :=
  let deps' := st.deps.set j (st.deps.getD j 0 - 1)
  if deps'.getD j 0 = 0 then
    let g := gates.getD j default
    let included' := st.included.set j true
    { deps := deps'
      included := included'
      newGates := st.newGates ++ [j]
      prunes := st.prunes ++ g.inputs.filter (pruneOk gates ow included')
      nextResolved := st.nextResolved ++ [g.out] }
  else
    { st with deps := deps' }

/-- One round of the scheduling loop: process every wire of the current
frontier, visiting the readers of each wire in order. -/
def runRound (gates : List Gate) (ow : List Nat) (deps : List Int)
    (included : List Bool) (frontier : List Nat) : SLState :=
  frontier.foldl (fun st w => (readers gates w).foldl (stepReader gates ow) st)
    ⟨deps, included, [], [], []⟩

def mkLayer (gates : List Gate) (st : SLState) : Layer :=
  ⟨st.newGates.map (fun i => gates.getD i default), st.prunes⟩

/-- The `loop { .. }` of the frontend `separate_layers`: breaks (without
pushing) as soon as a round schedules no gate.  Returns the final
`gates_included` flags together with the produced layers.  `none` means the
fuel ran out; `separate_layers` supplies enough fuel for this never to
happen (each non-final round schedules at least one gate). -/
def loopF (gates : List Gate) (ow : List Nat) :
    Nat → List Int → List Bool → List Nat → Option (List Bool × List Layer)
  | 0, _, _, _ => none
  | fuel + 1, deps, included, frontier =>
    let st := runRound gates ow deps included frontier
    if st.newGates = [] then
      some (st.included, [])
    else
      match loopF gates ow fuel st.deps st.included st.nextResolved with
      | none => none
      | some (inc, ls) => some (inc, mkLayer gates st :: ls)

/-- The `while wires_resolved.len() > 0 { .. }` loop of the older
`src/src/layered_circuit.rs` copy: every round's layer is pushed, including
a final empty one. -/
def loopB (gates : List Gate) (ow : List Nat) :
    Nat → List Int → List Bool → List Nat → Option (List Bool × List Layer)
  | 0, _, _, _ => none
  | fuel + 1, deps, included, frontier =>
    if frontier = [] then
      some (included, [])
    else
      let st := runRound gates ow deps included frontier
      match loopB gates ow fuel st.deps st.included st.nextResolved with
      | none => none
      | some (inc, ls) => some (inc, mkLayer gates st :: ls)

/-- Initial `gate_deps_remaining`: 1 for unary gates, 2 for binary gates. -/
def initDeps (gates : List Gate) : List Int :=
  gates.map (fun g => match g with | .Unary _ _ _ => 1 | .Binary _ _ _ _ => 2)

/-- The two postcondition `assert!`s of `separate_layers`: all gates
included, and the total prune count equals `wire_count - output_wires.len()`
(the extra `ow.length ≤ wire_count` guard models the `usize` underflow of
that subtraction, which also panics). -/
def checkAsserts (wire_count : Nat) (ow : List Nat) (included : List Bool)
    (layers : List Layer) : Bool :=
  included.all (fun b => b) && decide (ow.length ≤ wire_count) &&
    ((layers.map (fun l => l.prunes.length)).sum == wire_count - ow.length)

/-- `separate_layers` from `src/frontend/src/layered_circuit.rs`.  `none`
models a panic. -/
def separate_layers (gates : List Gate) (wire_count : Nat) (iw ow : List Nat) :
    Option (List Layer) :=
  match loopF gates ow (gates.length + 1) (initDeps gates)
      (List.replicate gates.length false) iw with
  | none => none
  | some (included, layers) =>
    if checkAsserts wire_count ow included layers then some layers else none

/-- `separate_layers` from `src/src/layered_circuit.rs` (the `while`-loop
variant). -/
def separate_layers_src (gates : List Gate) (wire_count : Nat) (iw ow : List Nat) :
    Option (List Layer) :=
  match loopB gates ow (gates.length + 2) (initDeps gates)
      (List.replicate gates.length false) iw with
  | none => none
  | some (included, layers) =>
    if checkAsserts wire_count ow included layers then some layers else none

/-- The boolean-algebra capability required of evaluation values
(the `BooleanOps` trait bound). -/
structure BoolOps (T : Type) : Type where
  and : T → T → T
  or : T → T → T
  xor : T → T → T
  not : T → T

def boolOps : BoolOps Bool :=
  ⟨fun a b => a && b, fun a b => a || b, fun a b => xor a b, fun a => !a⟩

/-- Evaluation-time panics of `LayeredCircuit::eval`, by panic site. -/
inductive EvalErr : Type
  | missingInput (name : String)
  | lengthMismatch (name : String)
  | missingWire (w : Nat)
  deriving DecidableEq, Repr

instance {E α : Type} [DecidableEq E] [DecidableEq α] : DecidableEq (Except E α) :=
  fun a b =>
    match a, b with
    | .ok x, .ok y =>
      if h : x = y then isTrue (by rw [h]) else
        isFalse (fun hc => h (by cases hc; rfl))
    | .error x, .error y =>
      if h : x = y then isTrue (by rw [h]) else
        isFalse (fun hc => h (by cases hc; rfl))
    | .ok _, .error _ => isFalse (fun hc => by cases hc)
    | .error _, .ok _ => isFalse (fun hc => by cases hc)

def updWire {T : Type} (ws : Nat → Option T) (w : Nat) (v : T) : Nat → Option T :=
  fun x => if x = w then some v else ws x

def delWire {T : Type} (ws : Nat → Option T) (w : Nat) : Nat → Option T :=
  fun x => if x = w then none else ws x

/-- Seed one input label's bits: `wires.insert(start + i, input[i])` for
`i in 0..bits` (called only after the `input.len() == bits` check, so
iterating over the supplied values is the same loop). -/
def seedLabel {T : Type} (ws : Nat → Option T) (lbl : CircuitLabel) (vals : List T) :
    Nat → Option T :=
  vals.enum.foldl (fun w p => updWire w (lbl.start + p.1) p.2) ws

/-- The input-validation-and-seeding loop of `eval`: look each declared
label up in the supplied assignment (`unwrap` panics on a missing entry),
check the length (`assert!` names the offending label), and seed the wires. -/
def seedInputs {T : Type} :
    List CircuitLabel → (String → Option (List T)) → (Nat → Option T) →
      Except EvalErr (Nat → Option T)
  | [], _, ws => .ok ws
  | lbl :: rest, ins, ws =>
    match ins lbl.name with
    | none => .error (.missingInput lbl.name)
    | some vals =>
      if vals.length = lbl.bits then seedInputs rest ins (seedLabel ws lbl vals)
      else .error (.lengthMismatch lbl.name)

/-- One gate computation: fixed operator semantics, operands read from the
wire table (`unwrap` on a missing operand is a panic). -/
def evalGate {T : Type} (ops : BoolOps T) (ws : Nat → Option T) :
    Gate → Except EvalErr (Nat × T)
  | .Unary op a o =>
    match ws a with
    | none => .error (.missingWire a)
    | some v => .ok (o, match op with | .Not => ops.not v | .Copy => v)
  | .Binary op a b o =>
    match ws a with
    | none => .error (.missingWire a)
    | some va =>
      match ws b with
      | none => .error (.missingWire b)
      | some vb =>
        .ok (o, match op with
          | .And => ops.and va vb
          | .Or => ops.or va vb
          | .Xor => ops.xor va vb)

/-- One layer of `eval`: all gate results are computed against the pre-layer
table (the parallel fan-out reads an immutable borrow), merged back in gate
order, and then the layer's prunes are removed. -/
def evalLayer {T : Type} (ops : BoolOps T) (ws : Nat → Option T) (layer : Layer) :
    Except EvalErr (Nat → Option T) := do
  let assigns ← layer.gates.mapM (evalGate ops ws)
  let ws1 := assigns.foldl (fun w p => updWire w p.1 p.2) ws
  return layer.prunes.foldl (fun w p => delWire w p) ws1

/-- Final output collection: read each output label's wire range from the
table (`unwrap` on a missing wire is a panic) and pair it with the name. -/
def collectOutputs {T : Type} (ws : Nat → Option T) (outs : List CircuitLabel) :
    Except EvalErr (List (String × List T)) :=
  outs.mapM (fun lbl =>
    ((List.range lbl.bits).mapM (fun i =>
      match ws (lbl.start + i) with
      | some v => Except.ok v
      | none => Except.error (EvalErr.missingWire (lbl.start + i)))).map
      (fun vs => (lbl.name, vs)))

/-- `LayeredCircuit::eval`.  The input assignment is the `HashMap` viewed
through its only used operation, `get`; the output map is the association
list of (label name, bits), in label order (names are distinct). -/
def evalLC {T : Type} (ops : BoolOps T) (c : LayeredCircuit)
    (ins : String → Option (List T)) : Except EvalErr (List (String × List T)) := do
  let ws ← seedInputs c.inputs ins (fun _ => none)
  let ws' ← c.layers.foldlM (evalLayer ops) ws
  collectOutputs ws' c.outputs

/-- Reference interpreter for the evaluation-correctness claim, following
the claim's words: evaluate the original gate list gate-by-gate in original
order under the fixed operator semantics, with the same input seeding and
output collection as the evaluator contract. -/
def refEval {T : Type} (ops : BoolOps T) (gates : List Gate)
    (inL outL : List CircuitLabel) (ins : String → Option (List T)) :
    Except EvalErr (List (String × List T)) := do
  let ws ← seedInputs inL ins (fun _ => none)
  let ws' ← gates.foldlM
    (fun w g => (evalGate ops w g).map (fun p => updWire w p.1 p.2)) ws
  collectOutputs ws' outL

/-- `io_wires`: the concatenated wire ranges `[start, start+bits)` of the
labels, in label order. -/
def ioWires (labels : List CircuitLabel) : List Nat :=
  labels.flatMap (fun lbl => (List.range lbl.bits).map (fun i => lbl.start + i))

/-- `io_labels`: sort the (name, start-index) entries of the map by start
index (a stable sort on the iteration order), check the count against the
width list, and zip positionally.  `none` models the assertion panic. -/
def io_labels (entries : List (String × Nat)) (widths : List Nat) :
    Option (List CircuitLabel) :=
  let ordered := entries.mergeSort (fun a b => a.2 ≤ b.2)
  if ordered.length = widths.length then
    some ((ordered.zip widths).map (fun p => ⟨p.1.1, p.1.2, p.2⟩))
  else none

/-! Proof infrastructure: abbreviations and invariants used by the theorems
below (not part of the embedded program). -/

/-- The gate at index `i` (total version of `gates[i]`). -/
def gAt (gates : List Gate) (i : Nat) : Gate :=
  gates.getD i default

/-- How many dependency decrements gate `i` receives when the wires of `P`
are processed: one per operand occurrence equal to a processed wire. -/
def decCount (gates : List Gate) (i : Nat) (P : List Nat) : Nat :=
  (P.map (fun w => (gAt gates i).inputs.count w)).sum

/-- Invariant relating a mid-round scheduler state `st` to the state `p`
the round started from. -/
structure MidInv (gates : List Gate) (ow : List Nat) (p st : SLState) : Prop where
  m1 : st.deps.length = gates.length
  m2 : st.included.length = gates.length
  m3 : ∀ i < gates.length, (st.included.getD i false = true ↔ st.deps.getD i 0 ≤ 0)
  m4 : ∀ i, p.included.getD i false = true → st.included.getD i false = true
  m5 : ∀ i, i ∈ st.newGates ↔
    (p.included.getD i false = false ∧ st.included.getD i false = true)
  m6 : st.newGates.Nodup
  m7 : st.nextResolved = st.newGates.map (fun i => (gAt gates i).out)
  m8 : ∀ w ∈ st.prunes, ow.contains w = false ∧
    ∀ k ∈ readers gates w, st.included.getD k false = true
  m9 : ∀ i ∈ st.newGates, i < gates.length
  m10 : st.newGates = [] → st.prunes = []

/-- Invariant for the accumulated prune lists: they stay duplicate-free and
every pruned wire already has all its readers included. -/
structure PruneInv (gates : List Gate) (acc : List Nat) (st : SLState) : Prop where
  p1 : (acc ++ st.prunes).Nodup
  p2 : ∀ w ∈ acc ++ st.prunes, ∀ k ∈ readers gates w,
    st.included.getD k false = true

/-- Table inclusion: every binding of `W` is a binding of `V`. -/
def TSub {T : Type} (W V : Nat → Option T) : Prop :=
  ∀ w v, W w = some v → V w = some v

/-- The table `V` is consistent with gate `g`: evaluating `g` against `V`
succeeds and `V` already stores the result at the output wire. -/
def GateConsistent {T : Type} (ops : BoolOps T) (V : Nat → Option T) (g : Gate) : Prop :=
  ∃ v, evalGate ops V g = .ok (g.out, v) ∧ V g.out = some v

/-! ### General list lemmas -/

theorem foldl_seq_id {α β : Type} (l : List α) (b : β) :
    l.foldl (fun s _ => s) b = b := by
  induction l generalizing b with
  | nil => rfl
  | cons a t ih => simp only [List.foldl_cons]; exact ih b

theorem getD_set_self {α : Type} (l : List α) (j : Nat) (v d : α) (h : j < l.length) :
    (l.set j v).getD j d = v := by
  rw [List.getD_eq_getElem?_getD, List.getElem?_set_self h]
  rfl

theorem getD_set_ne {α : Type} (l : List α) (i j : Nat) (v d : α) (h : j ≠ i) :
    (l.set j v).getD i d = l.getD i d := by
  rw [List.getD_eq_getElem?_getD, List.getElem?_set_ne h, ← List.getD_eq_getElem?_getD]

theorem getD_of_ge {α : Type} (l : List α) (i : Nat) (d : α) (h : l.length ≤ i) :
    l.getD i d = d := by
  rw [List.getD_eq_getElem?_getD, List.getElem?_eq_none h]
  rfl

theorem sum_map_ite_range (c : Nat → Nat) :
    ∀ n i : Nat, ((List.range n).map (fun k => if k = i then c k else 0)).sum =
      if i < n then c i else 0 := by
  intro n
  induction n with
  | zero => intro i; simp
  | succ n ih =>
    intro i
    rw [List.range_succ, List.map_append, List.sum_append, ih i]
    by_cases hi : i < n
    · have hne : n ≠ i := by omega
      simp [hne, hi, Nat.lt_succ_of_lt hi]
    · by_cases hni : n = i
      · subst hni
        simp [hi, Nat.lt_succ_self]
      · have : ¬ i < n + 1 := by omega
        simp [hni, hi, this]

theorem mem_readers {gates : List Gate} {w i : Nat} :
    i ∈ readers gates w ↔ i < gates.length ∧ w ∈ (gAt gates i).inputs := by
  unfold readers
  rw [List.mem_flatMap]
  constructor
  · rintro ⟨a, ha, hrep⟩
    rw [List.mem_replicate] at hrep
    obtain ⟨hne, rfl⟩ := hrep
    refine ⟨List.mem_range.mp ha, ?_⟩
    by_contra hw
    exact hne (List.count_eq_zero.mpr hw)
  · rintro ⟨hi, hw⟩
    refine ⟨i, List.mem_range.mpr hi, ?_⟩
    rw [List.mem_replicate]
    exact ⟨(List.count_pos_iff.mpr hw).ne', rfl⟩

theorem count_readers (gates : List Gate) (w i : Nat) :
    (readers gates w).count i =
      if i < gates.length then (gAt gates i).inputs.count w else 0 := by
  unfold readers
  rw [List.count_flatMap]
  have hcg : (List.map (List.count i ∘ fun j =>
        List.replicate ((gates.getD j default).inputs.count w) j) (List.range gates.length)) =
      (List.map (fun k => if k = i then (gAt gates k).inputs.count w else 0)
        (List.range gates.length)) := by
    refine List.map_congr_left (fun k _ => ?_)
    simp only [Function.comp_apply, List.count_replicate, gAt]
    by_cases hk : k = i
    · simp [hk]
    · have : ¬ (k == i) = true := by simpa using hk
      simp [this, hk]
  rw [hcg, sum_map_ite_range]

theorem count_flat_readers (gates : List Gate) (fr : List Nat) (i : Nat)
    (h : i < gates.length) :
    (fr.flatMap (readers gates)).count i = decCount gates i fr := by
  rw [List.count_flatMap]
  unfold decCount
  congr 1
  refine List.map_congr_left (fun w _ => ?_)
  simp [count_readers, h]

theorem mem_flat_readers {gates : List Gate} {fr : List Nat} {j : Nat}
    (h : j ∈ fr.flatMap (readers gates)) : j < gates.length := by
  rw [List.mem_flatMap] at h
  obtain ⟨w, _, hj⟩ := h
  exact (mem_readers.mp hj).1

theorem decCount_append (gates : List Gate) (i : Nat) (P Q : List Nat) :
    decCount gates i (P ++ Q) = decCount gates i P + decCount gates i Q := by
  unfold decCount
  rw [List.map_append, List.sum_append]

theorem count_ite_sum (l : List Nat) (w : Nat) :
    (l.map (fun x => if x = w then 1 else 0)).sum = l.count w := by
  induction l with
  | nil => simp
  | cons a t ih =>
    rw [List.map_cons, List.sum_cons, ih, List.count_cons]
    by_cases h : a = w
    · subst h
      simp [Nat.add_comm]
    · have hb : ¬ (a == w) = true := by simpa using h
      rw [if_neg h, if_neg hb]
      omega

theorem sum_counts_comm (l : List Nat) :
    ∀ P : List Nat, (P.map (fun w => l.count w)).sum = (l.map (fun x => P.count x)).sum := by
  intro P
  induction P with
  | nil => simp
  | cons a t ih =>
    rw [List.map_cons, List.sum_cons, ih]
    have hstep : (l.map (fun x => (a :: t).count x)) =
        (l.map (fun x => t.count x + if x = a then 1 else 0)) := by
      refine List.map_congr_left (fun x _ => ?_)
      rw [List.count_cons]
      by_cases h : x = a
      · subst h
        simp
      · have hb : ¬ (a == x) = true := by simpa using (Ne.symm h)
        rw [if_neg h, if_neg hb]
    rw [hstep, List.sum_map_add, count_ite_sum]
    ring

theorem count_ite_sum_compl (l : List Nat) (w : Nat) :
    (l.map (fun x => if x = w then 0 else 1)).sum + l.count w = l.length := by
  induction l with
  | nil => simp
  | cons a t ih =>
    rw [List.map_cons, List.sum_cons, List.count_cons, List.length_cons]
    by_cases h : a = w
    · subst h
      simp only [if_pos rfl, beq_self_eq_true, if_pos]
      omega
    · have hb : ¬ (a == w) = true := by simpa using h
      rw [if_neg h, if_neg hb]
      omega

theorem all_mem_of_le_sum_counts (P l : List Nat) (hP : P.Nodup)
    (h : l.length ≤ (P.map (fun w => l.count w)).sum) : ∀ x ∈ l, x ∈ P := by
  intro x hx
  by_contra hxP
  rw [sum_counts_comm] at h
  have hle : (l.map (fun y => P.count y)).sum ≤
      (l.map (fun y => if y = x then 0 else 1)).sum := by
    refine List.sum_le_sum (fun y _ => ?_)
    by_cases hyx : y = x
    · simp only [hyx, if_pos rfl]
      exact Nat.le_of_eq (List.count_eq_zero.mpr hxP)
    · simp only [if_neg hyx]
      exact (List.nodup_iff_count_le_one.mp hP) y
  have hcompl := count_ite_sum_compl l x
  have hcnt : 0 < l.count x := List.count_pos_iff.mpr hx
  omega

theorem count_false_le_of_imp : ∀ (l₁ l₂ : List Bool), l₁.length = l₂.length →
    (∀ i, l₁.getD i false = true → l₂.getD i false = true) →
    l₂.count false ≤ l₁.count false := by
  intro l₁
  induction l₁ with
  | nil =>
    intro l₂ hlen _
    rw [List.length_nil] at hlen
    rw [(List.length_eq_zero).mp hlen.symm]
  | cons a t₁ ih =>
    intro l₂ hlen himp
    match l₂ with
    | [] => simp at hlen
    | b :: t₂ =>
      have htl : t₁.length = t₂.length := by simpa using hlen
      have htimp : ∀ i, t₁.getD i false = true → t₂.getD i false = true := by
        intro i hi
        have := himp (i + 1)
        simp only [List.getD_cons_succ] at this
        exact this hi
      have hrec := ih t₂ htl htimp
      have h0 := himp 0
      simp only [List.getD_cons_zero] at h0
      rw [List.count_cons, List.count_cons]
      cases a with
      | true =>
        rw [h0 rfl]
        simpa using hrec
      | false =>
        cases b <;> simp <;> omega

theorem count_false_lt_of_flip : ∀ (l₁ l₂ : List Bool), l₁.length = l₂.length →
    (∀ i, l₁.getD i false = true → l₂.getD i false = true) →
    ∀ j, l₁.getD j false = false → l₂.getD j false = true →
    l₂.count false < l₁.count false := by
  intro l₁
  induction l₁ with
  | nil =>
    intro l₂ hlen _ j _ hj2
    rw [List.length_nil] at hlen
    rw [(List.length_eq_zero).mp hlen.symm] at hj2
    simp at hj2
  | cons a t₁ ih =>
    intro l₂ hlen himp j hj1 hj2
    match l₂ with
    | [] => simp at hlen
    | b :: t₂ =>
      have htl : t₁.length = t₂.length := by simpa using hlen
      have htimp : ∀ i, t₁.getD i false = true → t₂.getD i false = true := by
        intro i hi
        have := himp (i + 1)
        simp only [List.getD_cons_succ] at this
        exact this hi
      rw [List.count_cons, List.count_cons]
      match j with
      | 0 =>
        simp only [List.getD_cons_zero] at hj1 hj2
        subst hj1
        subst hj2
        have := count_false_le_of_imp t₁ t₂ htl htimp
        simp
        omega
      | j + 1 =>
        simp only [List.getD_cons_succ] at hj1 hj2
        have hrec := ih t₂ htl htimp j hj1 hj2
        have h0 := himp 0
        simp only [List.getD_cons_zero] at h0
        cases a with
        | true =>
          rw [h0 rfl]
          simpa using hrec
        | false =>
          cases b <;> simp <;> omega

/-! ### Scheduler round lemmas -/

theorem included_set_mono {l : List Bool} {j k : Nat} (hj : j < l.length)
    (h : l.getD k false = true) : (l.set j true).getD k false = true := by
  by_cases hk : j = k
  · subst hk
    rw [getD_set_self _ _ _ _ hj]
  · rw [getD_set_ne _ _ _ _ _ hk]
    exact h

theorem midInv_step {gates : List Gate} {ow : List Nat} {p st : SLState} {j : Nat}
    (hj : j < gates.length) (hinv : MidInv gates ow p st) :
    MidInv gates ow p (stepReader gates ow st j) := by
  obtain ⟨m1, m2, m3, m4, m5, m6, m7, m8, m9, m10⟩ := hinv
  have hjd : j < st.deps.length := m1 ▸ hj
  have hji : j < st.included.length := m2 ▸ hj
  have hd1 : (st.deps.set j (st.deps.getD j 0 - 1)).getD j 0 = st.deps.getD j 0 - 1 :=
    getD_set_self _ _ _ _ hjd
  by_cases hc : (st.deps.set j (st.deps.getD j 0 - 1)).getD j 0 = 0
  · -- the counter reaches zero: gate j is scheduled
    have hdj : st.deps.getD j 0 = 1 := by omega
    have hjf : st.included.getD j false = false := by
      have := (m3 j hj)
      rcases hb : st.included.getD j false with _ | _
      · rfl
      · exact absurd (this.mp hb) (by omega)
    have hstep : stepReader gates ow st j =
        { deps := st.deps.set j (st.deps.getD j 0 - 1)
          included := st.included.set j true
          newGates := st.newGates ++ [j]
          prunes := st.prunes ++ (gates.getD j default).inputs.filter
            (pruneOk gates ow (st.included.set j true))
          nextResolved := st.nextResolved ++ [(gates.getD j default).out] } := by
      simp only [stepReader, hc, if_pos]
    rw [hstep]
    have hmono : ∀ k, st.included.getD k false = true →
        (st.included.set j true).getD k false = true :=
      fun k hk => included_set_mono hji hk
    refine ⟨?_, ?_, ?_, ?_, ?_, ?_, ?_, ?_, ?_, ?_⟩
    · simpa using m1
    · simpa using m2
    · intro i hi
      by_cases hij : j = i
      · subst hij
        rw [getD_set_self _ _ _ _ hji, hd1, hdj]
        simp
      · rw [getD_set_ne _ _ _ _ _ hij, getD_set_ne _ _ _ _ _ hij]
        exact m3 i hi
    · intro i hi
      exact hmono i (m4 i hi)
    · intro i
      rw [List.mem_append, List.mem_singleton]
      constructor
      · rintro (hi | rfl)
        · obtain ⟨hp, hs⟩ := (m5 i).mp hi
          exact ⟨hp, hmono i hs⟩
        · refine ⟨?_, getD_set_self _ _ _ _ hji⟩
          rcases hb : p.included.getD i false with _ | _
          · rfl
          · exact absurd (m4 i hb) (by rw [hjf]; simp)
      · rintro ⟨hp, hs⟩
        by_cases hij : j = i
        · right; exact hij.symm
        · left
          rw [getD_set_ne _ _ _ _ _ hij] at hs
          exact (m5 i).mpr ⟨hp, hs⟩
    · rw [List.nodup_append]
      refine ⟨m6, List.nodup_singleton j, ?_⟩
      intro x hx hx'
      rw [List.mem_singleton] at hx'
      subst hx'
      have := (m5 x).mp hx
      rw [hjf] at this
      exact absurd this.2 (by simp)
    · rw [m7, List.map_append]
      rfl
    · intro w hw
      rw [List.mem_append] at hw
      rcases hw with hw | hw
      · obtain ⟨ho, hr⟩ := m8 w hw
        exact ⟨ho, fun k hk => hmono k (hr k hk)⟩
      · have hok := List.of_mem_filter hw
        unfold pruneOk at hok
        rw [Bool.and_eq_true] at hok
        refine ⟨by simpa using hok.1, ?_⟩
        intro k hk
        exact (List.all_eq_true.mp hok.2) k hk
    · intro i hi
      rw [List.mem_append, List.mem_singleton] at hi
      rcases hi with hi | rfl
      · exact m9 i hi
      · exact hj
    · intro h
      exact absurd h (by simp)
  · -- no new gate: only the counter changes
    have hstep : stepReader gates ow st j =
        { st with deps := st.deps.set j (st.deps.getD j 0 - 1) } := by
      simp only [stepReader, hc, if_neg, not_false_eq_true]
    rw [hstep]
    refine ⟨by simpa using m1, m2, ?_, m4, m5, m6, m7, m8, m9, m10⟩
    intro i hi
    by_cases hij : j = i
    · subst hij
      rw [hd1]
      have hiff := m3 j hj
      rcases hb : st.included.getD j false with _ | _
      · rw [hb] at hiff
        constructor
        · intro h; exact absurd h (by simp)
        · intro h
          have : ¬ st.deps.getD j 0 ≤ 0 := fun hle => by
            have := hiff.mpr hle
            simp at this
          omega
      · rw [hb] at hiff
        have := hiff.mp rfl
        constructor
        · intro _; omega
        · intro _; rfl
    · rw [getD_set_ne _ _ _ _ _ hij]
      exact m3 i hi

theorem midInv_fold {gates : List Gate} {ow : List Nat} {p : SLState} :
    ∀ (js : List Nat), (∀ j ∈ js, j < gates.length) →
    ∀ st, MidInv gates ow p st →
    MidInv gates ow p (js.foldl (stepReader gates ow) st) := by
  intro js
  induction js with
  | nil => intro _ st h; exact h
  | cons j t ih =>
    intro hjs st h
    rw [List.foldl_cons]
    exact ih (fun x hx => hjs x (List.mem_cons_of_mem j hx))
      _ (midInv_step (hjs j (List.mem_cons_self j t)) h)

theorem midInv_init {gates : List Gate} {ow : List Nat} (d : List Int) (inc : List Bool)
    (h1 : d.length = gates.length) (h2 : inc.length = gates.length)
    (h3 : ∀ i < gates.length, (inc.getD i false = true ↔ d.getD i 0 ≤ 0)) :
    MidInv gates ow ⟨d, inc, [], [], []⟩ ⟨d, inc, [], [], []⟩ := by
  refine ⟨h1, h2, h3, fun i h => h, ?_, List.nodup_nil, rfl, ?_, ?_, fun _ => rfl⟩
  · intro i
    simp only [List.not_mem_nil, false_iff, not_and]
    intro hf ht
    rw [hf] at ht
    exact absurd ht (by simp)
  · intro w hw
    exact absurd hw (List.not_mem_nil w)
  · intro i hi
    exact absurd hi (List.not_mem_nil i)

theorem foldl_readers_flat (gates : List Gate) (ow : List Nat) :
    ∀ (fr : List Nat) (st : SLState),
    fr.foldl (fun st w => (readers gates w).foldl (stepReader gates ow) st) st =
      (fr.flatMap (readers gates)).foldl (stepReader gates ow) st := by
  intro fr
  induction fr with
  | nil => intro st; rfl
  | cons w t ih =>
    intro st
    rw [List.foldl_cons, List.flatMap_cons, List.foldl_append]
    exact ih _

theorem runRound_eq_flat (gates : List Gate) (ow : List Nat) (d : List Int)
    (inc : List Bool) (fr : List Nat) :
    runRound gates ow d inc fr =
      (fr.flatMap (readers gates)).foldl (stepReader gates ow) ⟨d, inc, [], [], []⟩ :=
  foldl_readers_flat gates ow fr _

theorem midInv_runRound {gates : List Gate} {ow : List Nat} (d : List Int) (inc : List Bool)
    (fr : List Nat) (h1 : d.length = gates.length) (h2 : inc.length = gates.length)
    (h3 : ∀ i < gates.length, (inc.getD i false = true ↔ d.getD i 0 ≤ 0)) :
    MidInv gates ow ⟨d, inc, [], [], []⟩ (runRound gates ow d inc fr) := by
  rw [runRound_eq_flat]
  exact midInv_fold _ (fun j hj => mem_flat_readers hj) _ (midInv_init d inc h1 h2 h3)

theorem pruneInv_step {gates : List Gate} {ow : List Nat} {p st : SLState} {j : Nat}
    {acc : List Nat} (hj : j < gates.length)
    (hdist : ∀ i < gates.length, (gAt gates i).inputs.Nodup)
    (hmid : MidInv gates ow p st) (hpr : PruneInv gates acc st) :
    PruneInv gates acc (stepReader gates ow st j) := by
  obtain ⟨m1, m2, m3, m4, m5, m6, m7, m8, m9, m10⟩ := hmid
  obtain ⟨p1, p2⟩ := hpr
  have hjd : j < st.deps.length := m1 ▸ hj
  have hji : j < st.included.length := m2 ▸ hj
  have hd1 : (st.deps.set j (st.deps.getD j 0 - 1)).getD j 0 = st.deps.getD j 0 - 1 :=
    getD_set_self _ _ _ _ hjd
  by_cases hc : (st.deps.set j (st.deps.getD j 0 - 1)).getD j 0 = 0
  · have hdj : st.deps.getD j 0 = 1 := by omega
    have hjf : st.included.getD j false = false := by
      have := (m3 j hj)
      rcases hb : st.included.getD j false with _ | _
      · rfl
      · exact absurd (this.mp hb) (by omega)
    have hstep : stepReader gates ow st j =
        { deps := st.deps.set j (st.deps.getD j 0 - 1)
          included := st.included.set j true
          newGates := st.newGates ++ [j]
          prunes := st.prunes ++ (gates.getD j default).inputs.filter
            (pruneOk gates ow (st.included.set j true))
          nextResolved := st.nextResolved ++ [(gates.getD j default).out] } := by
      simp only [stepReader, hc, if_pos]
    rw [hstep]
    have hmono : ∀ k, st.included.getD k false = true →
        (st.included.set j true).getD k false = true :=
      fun k hk => included_set_mono hji hk
    have hsetS : ∀ w ∈ (gates.getD j default).inputs.filter
        (pruneOk gates ow (st.included.set j true)),
        ∀ k ∈ readers gates w, (st.included.set j true).getD k false = true := by
      intro w hw k hk
      have hok := List.of_mem_filter hw
      unfold pruneOk at hok
      rw [Bool.and_eq_true] at hok
      exact (List.all_eq_true.mp hok.2) k hk
    constructor
    · -- no duplicates in the accumulated prune lists
      rw [show acc ++ (st.prunes ++ (gates.getD j default).inputs.filter
          (pruneOk gates ow (st.included.set j true))) =
        (acc ++ st.prunes) ++ (gates.getD j default).inputs.filter
          (pruneOk gates ow (st.included.set j true)) from (List.append_assoc _ _ _).symm]
      rw [List.nodup_append]
      refine ⟨p1, List.Nodup.filter _ (hdist j hj), ?_⟩
      intro w hw hwS
      -- a wire pruned earlier has all readers included, but gate j is a
      -- reader of its own operand and was not included before this step
      have hj_reads : j ∈ readers gates w := by
        rw [mem_readers]
        exact ⟨hj, by
          have := List.mem_of_mem_filter hwS
          exact this⟩
      have := p2 w hw j hj_reads
      rw [hjf] at this
      exact absurd this (by simp)
    · intro w hw
      rw [show acc ++ (st.prunes ++ (gates.getD j default).inputs.filter
          (pruneOk gates ow (st.included.set j true))) =
        (acc ++ st.prunes) ++ (gates.getD j default).inputs.filter
          (pruneOk gates ow (st.included.set j true)) from (List.append_assoc _ _ _).symm]
        at hw
      rw [List.mem_append] at hw
      rcases hw with hw | hw
      · exact fun k hk => hmono k (p2 w hw k hk)
      · exact hsetS w hw
  · have hstep : stepReader gates ow st j =
        { st with deps := st.deps.set j (st.deps.getD j 0 - 1) } := by
      simp only [stepReader, hc, if_neg, not_false_eq_true]
    rw [hstep]
    exact ⟨p1, p2⟩

theorem pruneInv_fold {gates : List Gate} {ow : List Nat} {p : SLState} {acc : List Nat}
    (hdist : ∀ i < gates.length, (gAt gates i).inputs.Nodup) :
    ∀ (js : List Nat), (∀ j ∈ js, j < gates.length) →
    ∀ st, MidInv gates ow p st → PruneInv gates acc st →
    PruneInv gates acc (js.foldl (stepReader gates ow) st) := by
  intro js
  induction js with
  | nil => intro _ st _ h; exact h
  | cons j t ih =>
    intro hjs st hm h
    rw [List.foldl_cons]
    exact ih (fun x hx => hjs x (List.mem_cons_of_mem j hx)) _
      (midInv_step (hjs j (List.mem_cons_self j t)) hm)
      (pruneInv_step (hjs j (List.mem_cons_self j t)) hdist hm h)

theorem pruneInv_runRound {gates : List Gate} {ow : List Nat} {acc : List Nat}
    (d : List Int) (inc : List Bool) (fr : List Nat)
    (h1 : d.length = gates.length) (h2 : inc.length = gates.length)
    (h3 : ∀ i < gates.length, (inc.getD i false = true ↔ d.getD i 0 ≤ 0))
    (hdist : ∀ i < gates.length, (gAt gates i).inputs.Nodup)
    (hacc : acc.Nodup)
    (hacc2 : ∀ w ∈ acc, ∀ k ∈ readers gates w, inc.getD k false = true) :
    PruneInv gates acc (runRound gates ow d inc fr) := by
  rw [runRound_eq_flat]
  refine pruneInv_fold hdist _ (fun j hj => mem_flat_readers hj) _
    (midInv_init d inc h1 h2 h3) ⟨by simpa using hacc, ?_⟩
  intro w hw k hk
  rw [List.append_nil] at hw
  exact hacc2 w hw k hk

theorem foldl_deps_count {gates : List Gate} {ow : List Nat} :
    ∀ (js : List Nat), (∀ j ∈ js, j < gates.length) →
    ∀ (st : SLState), st.deps.length = gates.length → ∀ i : Nat,
    ((js.foldl (stepReader gates ow) st).deps.getD i 0) =
      st.deps.getD i 0 - (js.count i : Int) := by
  intro js
  induction js with
  | nil => intro _ st _ i; simp
  | cons j t ih =>
    intro hjs st hlen i
    rw [List.foldl_cons]
    have hjd : j < st.deps.length := hlen ▸ hjs j (List.mem_cons_self j t)
    have hstep_deps : (stepReader gates ow st j).deps =
        st.deps.set j (st.deps.getD j 0 - 1) := by
      unfold stepReader
      dsimp only
      split <;> rfl
    have hlen' : (stepReader gates ow st j).deps.length = gates.length := by
      rw [hstep_deps, List.length_set]
      exact hlen
    rw [ih (fun x hx => hjs x (List.mem_cons_of_mem j hx)) _ hlen' i, hstep_deps]
    rw [List.count_cons]
    by_cases hij : j = i
    · subst hij
      rw [getD_set_self _ _ _ _ hjd]
      simp only [beq_self_eq_true, if_pos]
      push_cast
      ring
    · rw [getD_set_ne _ _ _ _ _ hij]
      have : ¬ (j == i) = true := by simpa using hij
      rw [if_neg this]
      simp

theorem runRound_deps {gates : List Gate} {ow : List Nat} (d : List Int) (inc : List Bool)
    (fr : List Nat) (hlen : d.length = gates.length) (i : Nat) (hi : i < gates.length) :
    (runRound gates ow d inc fr).deps.getD i 0 =
      d.getD i 0 - (decCount gates i fr : Int) := by
  rw [runRound_eq_flat]
  rw [foldl_deps_count _ (fun j hj => mem_flat_readers hj) _ hlen i]
  rw [count_flat_readers gates fr i hi]

/-! ### Loop-level characterization of the frontend scheduler -/

theorem loopF_main_weak (gates : List Gate) (ow : List Nat) :
    ∀ (fuel : Nat) (deps : List Int) (included : List Bool) (frontier : List Nat)
      (incF : List Bool) (L : List Layer),
    deps.length = gates.length → included.length = gates.length →
    (∀ i < gates.length, (included.getD i false = true ↔ deps.getD i 0 ≤ 0)) →
    loopF gates ow fuel deps included frontier = some (incF, L) →
    ∃ idxss : List (List Nat),
      idxss.length = L.length ∧
      (∀ r : Nat, (L.getD r default).gates =
        (idxss.getD r []).map (fun i => gates.getD i default)) ∧
      (∀ r : Nat, r < L.length → idxss.getD r [] ≠ []) ∧
      idxss.flatten.Nodup ∧
      (∀ i ∈ idxss.flatten, i < gates.length ∧ included.getD i false = false ∧
        incF.getD i false = true) ∧
      (∀ i : Nat, incF.getD i false = true →
        included.getD i false = true ∨ i ∈ idxss.flatten) ∧
      (∀ i : Nat, included.getD i false = true → incF.getD i false = true) ∧
      (∀ r : Nat, ∀ w ∈ (L.getD r default).prunes, ow.contains w = false ∧
        (∀ k ∈ readers gates w, included.getD k false = true ∨
          ∃ r' ≤ r, k ∈ idxss.getD r' [])) ∧
      incF.length = gates.length := by
  intro fuel
  induction fuel with
  | zero =>
    intro deps included frontier incF L _ _ _ hrun
    simp [loopF] at hrun
  | succ fuel ih =>
    intro deps included frontier incF L h1 h2 h3 hrun
    simp only [loopF] at hrun
    have hmid : MidInv gates ow ⟨deps, included, [], [], []⟩
        (runRound gates ow deps included frontier) :=
      midInv_runRound deps included frontier h1 h2 h3
    set st := runRound gates ow deps included frontier with hst
    obtain ⟨m1, m2, m3, m4, m5, m6, m7, m8, m9, m10⟩ := hmid
    by_cases hng : st.newGates = []
    · rw [if_pos hng] at hrun
      rw [Option.some.injEq, Prod.mk.injEq] at hrun
      obtain ⟨hinc, hL⟩ := hrun
      subst hinc
      subst hL
      refine ⟨[], rfl, ?_, ?_, by simp, by simp, ?_, ?_, ?_, m2⟩
      · intro r
        rw [getD_of_ge _ _ _ (by simp), getD_of_ge _ _ _ (by simp)]
        rfl
      · intro r hr
        simp at hr
      · intro i hi
        left
        have hm := (m5 i)
        rw [hng] at hm
        simp only [List.not_mem_nil, false_iff, not_and] at hm
        rcases hb : included.getD i false with _ | _
        · exact absurd hi (hm hb)
        · rfl
      · intro i hi
        exact m4 i hi
      · intro r w hw
        rw [getD_of_ge _ _ _ (by simp)] at hw
        exact absurd hw (List.not_mem_nil w)
    · rw [if_neg hng] at hrun
      rcases hrec : loopF gates ow fuel st.deps st.included st.nextResolved with _ | p
      · rw [hrec] at hrun
        simp at hrun
      · rcases p with ⟨inc', ls⟩
        rw [hrec] at hrun
        simp only [Option.some.injEq, Prod.mk.injEq] at hrun
        obtain ⟨hinc, hL⟩ := hrun
        subst hinc
        subst hL
        obtain ⟨idxssT, B1, B2, B3, B4, B5, B6, B7, B8, B9⟩ :=
          ih st.deps st.included st.nextResolved inc' ls m1 m2 m3 hrec
        have hstmem : ∀ i ∈ st.newGates, included.getD i false = false ∧
            st.included.getD i false = true := fun i hi => (m5 i).mp hi
        have hnotpre : ∀ i ∈ idxssT.flatten, included.getD i false = false := by
          intro i hi
          rcases hb : included.getD i false with _ | _
          · rfl
          · have := m4 i hb
            rw [(B5 i hi).2.1] at this
            exact absurd this (by simp)
        refine ⟨st.newGates :: idxssT, by simpa using B1, ?_, ?_, ?_, ?_, ?_, ?_, ?_, B9⟩
        · intro r
          match r with
          | 0 => rfl
          | r + 1 =>
            rw [List.getD_cons_succ, List.getD_cons_succ]
            exact B2 r
        · intro r hr
          match r with
          | 0 => exact hng
          | r + 1 =>
            rw [List.getD_cons_succ]
            exact B3 r (by simpa using hr)
        · rw [List.flatten_cons, List.nodup_append]
          refine ⟨m6, B4, ?_⟩
          intro i hi hi'
          have h1' := (hstmem i hi).2
          have h2' := (B5 i hi').2.1
          rw [h1'] at h2'
          exact absurd h2' (by simp)
        · intro i hi
          rw [List.flatten_cons, List.mem_append] at hi
          rcases hi with hi | hi
          · exact ⟨m9 i hi, (hstmem i hi).1, B7 i (hstmem i hi).2⟩
          · exact ⟨(B5 i hi).1, hnotpre i hi, (B5 i hi).2.2⟩
        · intro i hi
          rcases B6 i hi with hb | hb
          · rcases hp : included.getD i false with _ | _
            · right
              rw [List.flatten_cons, List.mem_append]
              exact Or.inl ((m5 i).mpr ⟨hp, hb⟩)
            · exact Or.inl rfl
          · right
            rw [List.flatten_cons, List.mem_append]
            exact Or.inr hb
        · intro i hi
          exact B7 i (m4 i hi)
        · intro r w hw
          match r with
          | 0 =>
            have hw0 : w ∈ st.prunes := hw
            obtain ⟨how, hr⟩ := m8 w hw0
            refine ⟨how, ?_⟩
            intro k hk
            have hsk := hr k hk
            rcases hp : included.getD k false with _ | _
            · exact Or.inr ⟨0, Nat.le_refl 0, (m5 k).mpr ⟨hp, hsk⟩⟩
            · exact Or.inl rfl
          | r + 1 =>
            rw [List.getD_cons_succ] at hw
            obtain ⟨how, hr⟩ := B8 r w hw
            refine ⟨how, ?_⟩
            intro k hk
            rcases hr k hk with hb | ⟨r', hr', hk'⟩
            · rcases hp : included.getD k false with _ | _
              · exact Or.inr ⟨0, Nat.zero_le _, (m5 k).mpr ⟨hp, hb⟩⟩
              · exact Or.inl rfl
            · exact Or.inr ⟨r' + 1, by omega, by rw [List.getD_cons_succ]; exact hk'⟩

theorem out_inj {gates : List Gate} (houts : (gates.map Gate.out).Nodup)
    {i j : Nat} (hi : i < gates.length) (hj : j < gates.length)
    (h : (gAt gates i).out = (gAt gates j).out) : i = j := by
  have hi' : i < (gates.map Gate.out).length := by simpa using hi
  have hj' : j < (gates.map Gate.out).length := by simpa using hj
  have hgi : (gates.map Gate.out)[i] = (gAt gates i).out := by
    rw [List.getElem_map]
    unfold gAt
    rw [List.getD_eq_getElem _ _ hi]
  have hgj : (gates.map Gate.out)[j] = (gAt gates j).out := by
    rw [List.getElem_map]
    unfold gAt
    rw [List.getD_eq_getElem _ _ hj]
  exact (List.Nodup.getElem_inj_iff houts).mp (by rw [hgi, hgj]; exact h)

theorem loopF_main_topo (gates : List Gate) (ow : List Nat)
    (houts : (gates.map Gate.out).Nodup) :
    ∀ (fuel : Nat) (deps : List Int) (included : List Bool) (frontier past : List Nat)
      (incF : List Bool) (L : List Layer),
    deps.length = gates.length → included.length = gates.length →
    (∀ i < gates.length, (included.getD i false = true ↔ deps.getD i 0 ≤ 0)) →
    (∀ i < gates.length, deps.getD i 0 =
      ((gAt gates i).inputs.length : Int) - (decCount gates i past : Int)) →
    (past ++ frontier).Nodup →
    (∀ i < gates.length, included.getD i false = false →
      (gAt gates i).out ∉ past ++ frontier) →
    loopF gates ow fuel deps included frontier = some (incF, L) →
    ∃ idxss : List (List Nat),
      idxss.length = L.length ∧
      (∀ r : Nat, (L.getD r default).gates =
        (idxss.getD r []).map (fun i => gates.getD i default)) ∧
      idxss.flatten.Nodup ∧
      (∀ i ∈ idxss.flatten, i < gates.length ∧ included.getD i false = false ∧
        incF.getD i false = true) ∧
      (∀ i : Nat, incF.getD i false = true →
        included.getD i false = true ∨ i ∈ idxss.flatten) ∧
      (∀ i : Nat, included.getD i false = true → incF.getD i false = true) ∧
      (∀ r : Nat, ∀ i ∈ idxss.getD r [], ∀ w ∈ (gAt gates i).inputs,
        w ∈ past ++ frontier ∨
          ∃ r' < r, ∃ i' ∈ idxss.getD r' [], (gAt gates i').out = w) ∧
      (∀ r : Nat, ∀ w ∈ (L.getD r default).prunes, ow.contains w = false ∧
        (∀ k ∈ readers gates w, included.getD k false = true ∨
          ∃ r' ≤ r, k ∈ idxss.getD r' [])) := by
  intro fuel
  induction fuel with
  | zero =>
    intro deps included frontier past incF L _ _ _ _ _ _ hrun
    simp [loopF] at hrun
  | succ fuel ih =>
    intro deps included frontier past incF L h1 h2 h3 hdeps hnd hdisj hrun
    simp only [loopF] at hrun
    have hmid : MidInv gates ow ⟨deps, included, [], [], []⟩
        (runRound gates ow deps included frontier) :=
      midInv_runRound deps included frontier h1 h2 h3
    set st := runRound gates ow deps included frontier with hst
    obtain ⟨m1, m2, m3, m4, m5, m6, m7, m8, m9, m10⟩ := hmid
    by_cases hng : st.newGates = []
    · rw [if_pos hng] at hrun
      rw [Option.some.injEq, Prod.mk.injEq] at hrun
      obtain ⟨hinc, hL⟩ := hrun
      subst hinc
      subst hL
      refine ⟨[], rfl, ?_, by simp, by simp, ?_, ?_, ?_, ?_⟩
      · intro r
        rw [getD_of_ge _ _ _ (by simp), getD_of_ge _ _ _ (by simp)]
        rfl
      · intro i hi
        left
        have hm := (m5 i)
        rw [hng] at hm
        simp only [List.not_mem_nil, false_iff, not_and] at hm
        rcases hb : included.getD i false with _ | _
        · exact absurd hi (hm hb)
        · rfl
      · intro i hi
        exact m4 i hi
      · intro r i hi
        rw [getD_of_ge _ _ _ (by simp)] at hi
        exact absurd hi (List.not_mem_nil i)
      · intro r w hw
        rw [getD_of_ge _ _ _ (by simp)] at hw
        exact absurd hw (List.not_mem_nil w)
    · rw [if_neg hng] at hrun
      rcases hrec : loopF gates ow fuel st.deps st.included st.nextResolved with _ | p
      · rw [hrec] at hrun
        simp at hrun
      · rcases p with ⟨inc', ls⟩
        rw [hrec] at hrun
        simp only [Option.some.injEq, Prod.mk.injEq] at hrun
        obtain ⟨hinc, hL⟩ := hrun
        subst hinc
        subst hL
        -- state invariants for the recursive call
        have hstmem : ∀ i ∈ st.newGates, included.getD i false = false ∧
            st.included.getD i false = true := fun i hi => (m5 i).mp hi
        have hdeps' : ∀ i < gates.length, st.deps.getD i 0 =
            ((gAt gates i).inputs.length : Int) -
              (decCount gates i (past ++ frontier) : Int) := by
          intro i hi
          rw [hst, runRound_deps deps included frontier h1 i hi, hdeps i hi,
            decCount_append]
          push_cast
          ring
        have hnextnd : st.nextResolved.Nodup := by
          rw [m7]
          refine List.Nodup.map_on ?_ m6
          intro x hx y hy hxy
          exact out_inj houts (m9 x hx) (m9 y hy) hxy
        have hnextdisj : ∀ x ∈ st.nextResolved, x ∉ past ++ frontier := by
          intro x hx
          rw [m7] at hx
          rw [List.mem_map] at hx
          obtain ⟨i, hi, rfl⟩ := hx
          exact hdisj i (m9 i hi) (hstmem i hi).1
        have hnd' : ((past ++ frontier) ++ st.nextResolved).Nodup := by
          rw [List.nodup_append]
          refine ⟨hnd, hnextnd, ?_⟩
          intro a ha ha'
          exact hnextdisj a ha' ha
        have hdisj' : ∀ i < gates.length, st.included.getD i false = false →
            (gAt gates i).out ∉ (past ++ frontier) ++ st.nextResolved := by
          intro i hi hif
          rw [List.mem_append]
          rintro (hmem | hmem)
          · have hpre : included.getD i false = false := by
              rcases hb : included.getD i false with _ | _
              · rfl
              · rw [m4 i hb] at hif; exact absurd hif (by simp)
            exact hdisj i hi hpre hmem
          · rw [m7, List.mem_map] at hmem
            obtain ⟨j, hj, hout⟩ := hmem
            have := out_inj houts (m9 j hj) hi hout
            subst this
            rw [(hstmem j hj).2] at hif
            exact absurd hif (by simp)
        obtain ⟨idxssT, B1, B2, B4, B5, B6, B7, Btopo, B8⟩ :=
          ih st.deps st.included st.nextResolved (past ++ frontier) inc' ls
            m1 m2 m3 hdeps' hnd' hdisj' hrec
        have hnotpre : ∀ i ∈ idxssT.flatten, included.getD i false = false := by
          intro i hi
          rcases hb : included.getD i false with _ | _
          · rfl
          · have := m4 i hb
            rw [(B5 i hi).2.1] at this
            exact absurd this (by simp)
        refine ⟨st.newGates :: idxssT, by simpa using B1, ?_, ?_, ?_, ?_, ?_, ?_, ?_⟩
        · intro r
          match r with
          | 0 => rfl
          | r + 1 =>
            rw [List.getD_cons_succ, List.getD_cons_succ]
            exact B2 r
        · rw [List.flatten_cons, List.nodup_append]
          refine ⟨m6, B4, ?_⟩
          intro i hi hi'
          have ha := (hstmem i hi).2
          have hb := (B5 i hi').2.1
          rw [ha] at hb
          exact absurd hb (by simp)
        · intro i hi
          rw [List.flatten_cons, List.mem_append] at hi
          rcases hi with hi | hi
          · exact ⟨m9 i hi, (hstmem i hi).1, B7 i (hstmem i hi).2⟩
          · exact ⟨(B5 i hi).1, hnotpre i hi, (B5 i hi).2.2⟩
        · intro i hi
          rcases B6 i hi with hb | hb
          · rcases hp : included.getD i false with _ | _
            · right
              rw [List.flatten_cons, List.mem_append]
              exact Or.inl ((m5 i).mpr ⟨hp, hb⟩)
            · exact Or.inl rfl
          · right
            rw [List.flatten_cons, List.mem_append]
            exact Or.inr hb
        · intro i hi
          exact B7 i (m4 i hi)
        · -- topological validity
          intro r i hi w hw
          match r with
          | 0 =>
            have hi0 : i ∈ st.newGates := hi
            have hgn : i < gates.length := m9 i hi0
            have hsti : st.included.getD i false = true := (hstmem i hi0).2
            have hle : st.deps.getD i 0 ≤ 0 := (m3 i hgn).mp hsti
            rw [hdeps' i hgn] at hle
            have hcast : (gAt gates i).inputs.length ≤
                decCount gates i (past ++ frontier) := by omega
            left
            exact all_mem_of_le_sum_counts (past ++ frontier) _ hnd hcast w hw
          | r + 1 =>
            rw [List.getD_cons_succ] at hi
            rcases Btopo r i hi w hw with hmem | ⟨r', hr', i', hi', hout⟩
            · rw [List.mem_append] at hmem
              rcases hmem with hmem | hmem
              · exact Or.inl hmem
              · rw [m7, List.mem_map] at hmem
                obtain ⟨i', hi', hout⟩ := hmem
                exact Or.inr ⟨0, Nat.succ_pos r, i', hi', hout⟩
            · exact Or.inr ⟨r' + 1, by omega, i', by
                rw [List.getD_cons_succ]; exact hi', hout⟩
        · intro r w hw
          match r with
          | 0 =>
            have hw0 : w ∈ st.prunes := hw
            obtain ⟨how, hr⟩ := m8 w hw0
            refine ⟨how, ?_⟩
            intro k hk
            have hsk := hr k hk
            rcases hp : included.getD k false with _ | _
            · exact Or.inr ⟨0, Nat.le_refl 0, (m5 k).mpr ⟨hp, hsk⟩⟩
            · exact Or.inl rfl
          | r + 1 =>
            rw [List.getD_cons_succ] at hw
            obtain ⟨how, hr⟩ := B8 r w hw
            refine ⟨how, ?_⟩
            intro k hk
            rcases hr k hk with hb | ⟨r', hr', hk'⟩
            · rcases hp : included.getD k false with _ | _
              · exact Or.inr ⟨0, Nat.zero_le _, (m5 k).mpr ⟨hp, hb⟩⟩
              · exact Or.inl rfl
            · exact Or.inr ⟨r' + 1, by omega, by rw [List.getD_cons_succ]; exact hk'⟩

theorem loopF_prunes_nodup (gates : List Gate) (ow : List Nat)
    (hdist : ∀ i < gates.length, (gAt gates i).inputs.Nodup) :
    ∀ (fuel : Nat) (deps : List Int) (included : List Bool) (frontier acc : List Nat)
      (incF : List Bool) (L : List Layer),
    deps.length = gates.length → included.length = gates.length →
    (∀ i < gates.length, (included.getD i false = true ↔ deps.getD i 0 ≤ 0)) →
    acc.Nodup →
    (∀ w ∈ acc, ∀ k ∈ readers gates w, included.getD k false = true) →
    loopF gates ow fuel deps included frontier = some (incF, L) →
    (acc ++ (L.map Layer.prunes).flatten).Nodup := by
  intro fuel
  induction fuel with
  | zero =>
    intro deps included frontier acc incF L _ _ _ _ _ hrun
    simp [loopF] at hrun
  | succ fuel ih =>
    intro deps included frontier acc incF L h1 h2 h3 hacc hacc2 hrun
    simp only [loopF] at hrun
    have hmid : MidInv gates ow ⟨deps, included, [], [], []⟩
        (runRound gates ow deps included frontier) :=
      midInv_runRound deps included frontier h1 h2 h3
    have hpr : PruneInv gates acc (runRound gates ow deps included frontier) :=
      pruneInv_runRound deps included frontier h1 h2 h3 hdist hacc hacc2
    set st := runRound gates ow deps included frontier with hst
    obtain ⟨m1, m2, m3, m4, m5, m6, m7, m8, m9, m10⟩ := hmid
    obtain ⟨p1, p2⟩ := hpr
    by_cases hng : st.newGates = []
    · rw [if_pos hng] at hrun
      rw [Option.some.injEq, Prod.mk.injEq] at hrun
      obtain ⟨_, hL⟩ := hrun
      subst hL
      simpa using hacc
    · rw [if_neg hng] at hrun
      rcases hrec : loopF gates ow fuel st.deps st.included st.nextResolved with _ | p
      · rw [hrec] at hrun
        simp at hrun
      · rcases p with ⟨inc', ls⟩
        rw [hrec] at hrun
        simp only [Option.some.injEq, Prod.mk.injEq] at hrun
        obtain ⟨_, hL⟩ := hrun
        subst hL
        have hres := ih st.deps st.included st.nextResolved (acc ++ st.prunes) inc' ls
          m1 m2 m3 p1 p2 hrec
        rw [List.map_cons, List.flatten_cons]
        have hshape : (mkLayer gates st).prunes = st.prunes := rfl
        rw [hshape]
        rw [← List.append_assoc]
        exact hres

theorem readers_nil (w : Nat) : readers [] w = [] := rfl

theorem runRound_nil_gates (ow : List Nat) (d : List Int) (inc : List Bool)
    (fr : List Nat) : runRound [] ow d inc fr = ⟨d, inc, [], [], []⟩ := by
  unfold runRound
  exact foldl_seq_id fr _

theorem loopF_nil_gates (ow : List Nat) (fuel : Nat) (d : List Int) (inc : List Bool)
    (fr : List Nat) : loopF [] ow (fuel + 1) d inc fr = some (inc, []) := by
  simp only [loopF, runRound_nil_gates]
  simp

/-- Fuel adequacy: a round that schedules no gate ends the loop, and each
other round flips at least one inclusion flag, so fuel exceeding the number
of not-yet-included gates suffices. -/
theorem loopF_isSome (gates : List Gate) (ow : List Nat) :
    ∀ (fuel : Nat) (deps : List Int) (included : List Bool) (frontier : List Nat),
    deps.length = gates.length → included.length = gates.length →
    (∀ i < gates.length, (included.getD i false = true ↔ deps.getD i 0 ≤ 0)) →
    included.count false < fuel →
    (loopF gates ow fuel deps included frontier).isSome := by
  intro fuel
  induction fuel with
  | zero =>
    intro deps included frontier _ _ _ hcnt
    omega
  | succ fuel ih =>
    intro deps included frontier h1 h2 h3 hcnt
    simp only [loopF]
    have hmid : MidInv gates ow ⟨deps, included, [], [], []⟩
        (runRound gates ow deps included frontier) :=
      midInv_runRound deps included frontier h1 h2 h3
    set st := runRound gates ow deps included frontier with hst
    obtain ⟨m1, m2, m3, m4, m5, m6, m7, m8, m9, m10⟩ := hmid
    by_cases hng : st.newGates = []
    · rw [if_pos hng]
      rfl
    · rw [if_neg hng]
      obtain ⟨j, hj⟩ := List.exists_mem_of_ne_nil st.newGates hng
      obtain ⟨hjf, hjt⟩ := (m5 j).mp hj
      have hlt : st.included.count false < included.count false :=
        count_false_lt_of_flip included st.included (h2.trans m2.symm)
          (fun i hi => m4 i hi) j hjf hjt
      have := ih st.deps st.included st.nextResolved m1 m2 m3 (by omega)
      rcases hr : loopF gates ow fuel st.deps st.included st.nextResolved with _ | p
      · rw [hr] at this
        simp at this
      · rcases p with ⟨inc', ls⟩
        rfl

/-- The loop of separate_layers never exhausts its fuel. -/
theorem separate_layers_loop_isSome (gates : List Gate)
    (iw ow : List Nat) :
    (loopF gates ow (gates.length + 1) (initDeps gates)
      (List.replicate gates.length false) iw).isSome := by
  refine loopF_isSome gates ow _ _ _ _ (by simp [initDeps]) (by simp) ?_ ?_
  · intro i hi
    constructor
    · intro h
      rw [List.getD_eq_getElem _ _ (by simpa using hi), List.getElem_replicate] at h
      exact absurd h (by simp)
    · intro h
      unfold initDeps at h
      rw [List.getD_eq_getElem _ _ (by simpa [initDeps] using hi)] at h
      rw [List.getElem_map] at h
      rcases hg : gates[i] with _ | _ <;> rw [hg] at h <;> simp at h
  · have : (List.replicate gates.length false).count false = gates.length := by
      simp [List.count_replicate]
    omega

theorem initDeps_length (gates : List Gate) : (initDeps gates).length = gates.length := by
  simp [initDeps]

theorem init_inc_iff (gates : List Gate) : ∀ i < gates.length,
    ((List.replicate gates.length false).getD i false = true ↔
      (initDeps gates).getD i 0 ≤ 0) := by
  intro i hi
  constructor
  · intro h
    rw [List.getD_eq_getElem _ _ (by simpa using hi), List.getElem_replicate] at h
    exact absurd h (by simp)
  · intro h
    rw [List.getD_eq_getElem _ _ (by simpa [initDeps] using hi)] at h
    unfold initDeps at h
    rw [List.getElem_map] at h
    rcases hg : gates[i] with _ | _ <;> rw [hg] at h <;> simp at h

theorem runRound_nil_frontier (gates : List Gate) (ow : List Nat) (d : List Int)
    (inc : List Bool) : runRound gates ow d inc [] = ⟨d, inc, [], [], []⟩ := rfl

theorem loopF_nil_frontier (gates : List Gate) (ow : List Nat) (fuel : Nat)
    (d : List Int) (inc : List Bool) :
    loopF gates ow (fuel + 1) d inc [] = some (inc, []) := by
  simp only [loopF, runRound_nil_frontier]
  simp

theorem loopB_nil_frontier (gates : List Gate) (ow : List Nat) (fuel : Nat)
    (d : List Int) (inc : List Bool) :
    loopB gates ow (fuel + 1) d inc [] = some (inc, []) := by
  simp only [loopB]
  simp

theorem loopF_succ (gates : List Gate) (ow : List Nat) (fuel : Nat) (d : List Int)
    (inc : List Bool) (fr : List Nat) :
    loopF gates ow (fuel + 1) d inc fr =
      (let st := runRound gates ow d inc fr
       if st.newGates = [] then some (st.included, [])
       else
        match loopF gates ow fuel st.deps st.included st.nextResolved with
        | none => none
        | some (i, ls) => some (i, mkLayer gates st :: ls)) := rfl

theorem loopB_succ (gates : List Gate) (ow : List Nat) (fuel : Nat) (d : List Int)
    (inc : List Bool) (fr : List Nat) :
    loopB gates ow (fuel + 1) d inc fr =
      (if fr = [] then some (inc, [])
       else
        let st := runRound gates ow d inc fr
        match loopB gates ow fuel st.deps st.included st.nextResolved with
        | none => none
        | some (i, ls) => some (i, mkLayer gates st :: ls)) := rfl

/-- The two loop variants agree up to one trailing empty layer, on a
non-empty frontier. -/
theorem loopFB_rel (gates : List Gate) (ow : List Nat) :
    ∀ (fuel : Nat) (deps : List Int) (included : List Bool) (frontier : List Nat),
    deps.length = gates.length → included.length = gates.length →
    (∀ i < gates.length, (included.getD i false = true ↔ deps.getD i 0 ≤ 0)) →
    frontier ≠ [] →
    loopB gates ow (fuel + 1) deps included frontier =
      (loopF gates ow fuel deps included frontier).map
        (fun p => (p.1, p.2 ++ [(⟨[], []⟩ : Layer)])) := by
  intro fuel
  induction fuel with
  | zero =>
    intro deps included frontier _ _ _ hfr
    simp only [loopB, loopF]
    rw [if_neg hfr]
    simp
  | succ fuel ih =>
    intro deps included frontier h1 h2 h3 hfr
    have hmid : MidInv gates ow ⟨deps, included, [], [], []⟩
        (runRound gates ow deps included frontier) :=
      midInv_runRound deps included frontier h1 h2 h3
    set st := runRound gates ow deps included frontier with hst
    obtain ⟨m1, m2, m3, m4, m5, m6, m7, m8, m9, m10⟩ := hmid
    by_cases hng : st.newGates = []
    · have hnr : st.nextResolved = [] := by rw [m7, hng]; rfl
      have hpr : st.prunes = [] := m10 hng
      have hF : loopF gates ow (fuel + 1) deps included frontier =
          some (st.included, []) := by
        rw [loopF_succ, ← hst]
        simp only
        rw [if_pos hng]
      have hB : loopB gates ow (fuel + 2) deps included frontier =
          some (st.included, [⟨[], []⟩]) := by
        rw [loopB_succ, if_neg hfr, ← hst]
        simp only
        rw [hnr, loopB_nil_frontier]
        have hmk : mkLayer gates st = ⟨[], []⟩ := by
          unfold mkLayer
          rw [hng, hpr]
          rfl
        rw [hmk]
      rw [hF, hB]
      rfl
    · have hnr : st.nextResolved ≠ [] := by
        rw [m7]
        intro h
        exact hng (List.map_eq_nil_iff.mp h)
      have hrec := ih st.deps st.included st.nextResolved m1 m2 m3 hnr
      have hF : loopF gates ow (fuel + 1) deps included frontier =
          match loopF gates ow fuel st.deps st.included st.nextResolved with
          | none => none
          | some (inc, ls) => some (inc, mkLayer gates st :: ls) := by
        rw [loopF_succ, ← hst]
        simp only
        rw [if_neg hng]
      have hB : loopB gates ow (fuel + 2) deps included frontier =
          match loopB gates ow (fuel + 1) st.deps st.included st.nextResolved with
          | none => none
          | some (inc, ls) => some (inc, mkLayer gates st :: ls) := by
        rw [loopB_succ, if_neg hfr, ← hst]
      rw [hF, hB, hrec]
      rcases loopF gates ow fuel st.deps st.included st.nextResolved with _ | ⟨inc, ls⟩
      · rfl
      · simp

theorem checkAsserts_snoc_empty (wc : Nat) (ow : List Nat) (inc : List Bool)
    (L : List Layer) :
    checkAsserts wc ow inc (L ++ [⟨[], []⟩]) = checkAsserts wc ow inc L := by
  unfold checkAsserts
  rw [List.map_append, List.sum_append]
  simp

/-! ### Helpers for the claim-level theorems -/

theorem checkAsserts_true {wc : Nat} {ow : List Nat} {inc : List Bool} {L : List Layer}
    (h : checkAsserts wc ow inc L = true) :
    (∀ b ∈ inc, b = true) ∧ ow.length ≤ wc ∧
      (L.map (fun l => l.prunes.length)).sum = wc - ow.length := by
  unfold checkAsserts at h
  rw [Bool.and_eq_true, Bool.and_eq_true] at h
  obtain ⟨⟨ha, hb⟩, hc⟩ := h
  refine ⟨?_, of_decide_eq_true hb, ?_⟩
  · intro b hb'
    exact List.all_eq_true.mp ha b hb'
  · simpa using hc

theorem separate_layers_some {gates : List Gate} {wc : Nat} {iw ow : List Nat}
    {L : List Layer} (h : separate_layers gates wc iw ow = some L) :
    ∃ incF, loopF gates ow (gates.length + 1) (initDeps gates)
        (List.replicate gates.length false) iw = some (incF, L) ∧
      checkAsserts wc ow incF L = true := by
  unfold separate_layers at h
  rcases hF : loopF gates ow (gates.length + 1) (initDeps gates)
      (List.replicate gates.length false) iw with _ | p
  · rw [hF] at h
    simp at h
  · rcases p with ⟨inc, layers⟩
    rw [hF] at h
    rcases hc : checkAsserts wc ow inc layers with _ | _
    · simp [hc] at h
    · simp [hc] at h
      subst h
      exact ⟨inc, rfl, hc⟩

theorem separate_layers_src_some {gates : List Gate} {wc : Nat} {iw ow : List Nat}
    {L : List Layer} (h : separate_layers_src gates wc iw ow = some L) :
    ∃ incF, loopB gates ow (gates.length + 2) (initDeps gates)
        (List.replicate gates.length false) iw = some (incF, L) ∧
      checkAsserts wc ow incF L = true := by
  unfold separate_layers_src at h
  rcases hF : loopB gates ow (gates.length + 2) (initDeps gates)
      (List.replicate gates.length false) iw with _ | p
  · rw [hF] at h
    simp at h
  · rcases p with ⟨inc, layers⟩
    rw [hF] at h
    rcases hc : checkAsserts wc ow inc layers with _ | _
    · simp [hc] at h
    · simp [hc] at h
      subst h
      exact ⟨inc, rfl, hc⟩

theorem all_getD_true {inc : List Bool} (h : ∀ b ∈ inc, b = true) {i : Nat}
    (hi : i < inc.length) : inc.getD i false = true := by
  rw [List.getD_eq_getElem _ _ hi]
  exact h _ (List.getElem_mem hi)

theorem replicate_false_getD (n i : Nat) :
    (List.replicate n false).getD i false = false := by
  by_cases hi : i < n
  · rw [List.getD_eq_getElem _ _ (by simpa using hi), List.getElem_replicate]
  · rw [getD_of_ge _ _ _ (by simpa using hi)]

theorem map_getD_range {α : Type} (d : α) (l : List α) :
    (List.range l.length).map (fun i => l.getD i d) = l := by
  refine List.ext_getElem (by simp) ?_
  intro n h1 h2
  rw [List.getElem_map, List.getElem_range]
  rw [List.getD_eq_getElem _ _ h2]

theorem initDeps_getD (gates : List Gate) : ∀ i < gates.length,
    (initDeps gates).getD i 0 = ((gAt gates i).inputs.length : Int) := by
  intro i hi
  have hi' : i < (initDeps gates).length := by rw [initDeps_length]; exact hi
  rw [List.getD_eq_getElem _ _ hi']
  unfold initDeps
  rw [List.getElem_map]
  unfold gAt
  rw [List.getD_eq_getElem _ _ hi]
  rcases gates[i] with _ | _ <;> simp [Gate.inputs]

theorem mem_getD_flatten {α : Type} {L : List (List α)} {r : Nat} {x : α}
    (h : x ∈ L.getD r []) : x ∈ L.flatten := by
  by_cases hr : r < L.length
  · rw [List.getD_eq_getElem _ _ hr] at h
    exact List.mem_flatten.mpr ⟨L[r], List.getElem_mem hr, h⟩
  · rw [getD_of_ge _ _ _ (by omega)] at h
    exact absurd h (List.not_mem_nil x)

theorem nodup_flatten_pair {α : Type} :
    ∀ (L : List (List α)), L.flatten.Nodup → ∀ (r r' : Nat), r ≠ r' → ∀ x : α,
    x ∈ L.getD r [] → x ∈ L.getD r' [] → False := by
  intro L
  induction L with
  | nil =>
    intro _ r r' _ x hx _
    rw [getD_of_ge _ _ _ (by simp)] at hx
    exact absurd hx (List.not_mem_nil x)
  | cons hd tl ih =>
    intro hnd r r' hne x hx hx'
    rw [List.flatten_cons, List.nodup_append] at hnd
    obtain ⟨h1, h2, hdisj⟩ := hnd
    match r, r' with
    | 0, 0 => exact hne rfl
    | 0, r' + 1 =>
      rw [List.getD_cons_zero] at hx
      rw [List.getD_cons_succ] at hx'
      exact hdisj hx (mem_getD_flatten hx')
    | r + 1, 0 =>
      rw [List.getD_cons_zero] at hx'
      rw [List.getD_cons_succ] at hx
      exact hdisj hx' (mem_getD_flatten hx)
    | r + 1, r' + 1 =>
      rw [List.getD_cons_succ] at hx hx'
      exact ih h2 r r' (by omega) x hx hx'

/-! ### Claim C2 -/

/-- C2, counterexample: a gate list satisfying the claim's hypotheses
(single-assignment, acyclic, every operand a declared primary input) on
which separate_layers nevertheless panics — wire 3 is a declared input that
no gate reads and that is not an output, so the prune-count assertion fails
and no layers are produced (so the AND gate appears in no layer at all). -/
theorem claim_C2_counterexample :
    ([Gate.Binary BinaryOp.And 0 1 2].map Gate.out).Nodup ∧
    (∀ g ∈ [Gate.Binary BinaryOp.And 0 1 2], ∀ w ∈ g.inputs, w ∈ [0, 1, 3]) ∧
    separate_layers [Gate.Binary BinaryOp.And 0 1 2] 4 [0, 1, 3] [2] = none := by
  decide

/-- C2 (amended): whenever separate_layers returns a layering (its
postcondition assertions pass), the concatenation of the layers' gate lists
is a permutation of the input gate list — every gate appears in exactly one
layer, no gate twice. -/
theorem claim_C2_every_gate_exactly_once :
    ∀ (gates : List Gate) (wc : Nat) (iw ow : List Nat) (L : List Layer),
    separate_layers gates wc iw ow = some L →
    ((L.map Layer.gates).flatten).Perm gates := by
  intro gates wc iw ow L h
  obtain ⟨incF, hF, hchk⟩ := separate_layers_some h
  obtain ⟨hall, _, _⟩ := checkAsserts_true hchk
  obtain ⟨idxss, A1, A2, _, A4, A5, A6, _, _, A9⟩ :=
    loopF_main_weak gates ow _ _ _ _ _ _ (initDeps_length gates) (by simp)
      (init_inc_iff gates) hF
  have hLg : L.map Layer.gates = idxss.map (fun idxs =>
      idxs.map (fun i => gates.getD i default)) := by
    refine List.ext_getElem (by simp [A1]) ?_
    intro n h1 h2
    have hn : n < L.length := by simpa using h1
    have hn' : n < idxss.length := by simpa using h2
    rw [List.getElem_map, List.getElem_map]
    have := A2 n
    rw [List.getD_eq_getElem _ _ hn, List.getD_eq_getElem _ _ hn'] at this
    exact this
  have hmem : ∀ i, i ∈ idxss.flatten ↔ i ∈ List.range gates.length := by
    intro i
    constructor
    · intro hi
      exact List.mem_range.mpr (A5 i hi).1
    · intro hi
      have hi' : i < gates.length := List.mem_range.mp hi
      have hincF : incF.getD i false = true := all_getD_true hall (by rw [A9]; exact hi')
      rcases A6 i hincF with hb | hb
      · rw [replicate_false_getD] at hb
        exact absurd hb (by simp)
      · exact hb
  have hperm : idxss.flatten.Perm (List.range gates.length) :=
    (List.perm_ext_iff_of_nodup A4 (List.nodup_range gates.length)).mpr hmem
  rw [hLg, ← List.map_flatten]
  have := hperm.map (fun i => gates.getD i default)
  rw [map_getD_range] at this
  exact this

/-- C2 witness instance: a 1-gate circuit accepted by separate_layers. -/
theorem claim_C2_witness :
    (([(⟨[Gate.Binary BinaryOp.And 0 1 2], [0, 1]⟩ : Layer)].map Layer.gates).flatten).Perm
      [Gate.Binary BinaryOp.And 0 1 2] :=
  claim_C2_every_gate_exactly_once [Gate.Binary BinaryOp.And 0 1 2] 3 [0, 1] [2]
    [⟨[Gate.Binary BinaryOp.And 0 1 2], [0, 1]⟩] (by decide)

/-! ### Claim C3 -/

/-- C3, counterexample: the accepted circuit AND(0,0)→2 prunes wire 0 twice
in the same layer (both operand slots release it), yet both postcondition
assertions pass, so the claim's "no wire appears twice in a prune list" is
false as stated. -/
theorem claim_C3_counterexample :
    separate_layers [Gate.Binary BinaryOp.And 0 0 2] 3 [0, 1] [2] =
      some [⟨[Gate.Binary BinaryOp.And 0 0 2], [0, 0]⟩] ∧
    ¬ ((([(⟨[Gate.Binary BinaryOp.And 0 0 2], [0, 0]⟩ : Layer)].map
        Layer.prunes).flatten).Nodup) := by
  constructor
  · decide
  · decide

/-- C3 (amended): when additionally no gate lists the same wire in both
operand positions, the liveness bookkeeping is exact: the total pruned-wire
count equals wire_count minus the number of declared output wires, no wire
is pruned twice (in one layer or across layers), and no declared output
wire is ever pruned. -/
theorem claim_C3_liveness :
    ∀ (gates : List Gate) (wc : Nat) (iw ow : List Nat) (L : List Layer),
    (∀ g ∈ gates, g.inputs.Nodup) →
    separate_layers gates wc iw ow = some L →
    ((L.map Layer.prunes).flatten).length = wc - ow.length ∧
    ((L.map Layer.prunes).flatten).Nodup ∧
    (∀ w ∈ (L.map Layer.prunes).flatten, w ∉ ow) := by
  intro gates wc iw ow L hdist h
  obtain ⟨incF, hF, hchk⟩ := separate_layers_some h
  obtain ⟨_, _, hsum⟩ := checkAsserts_true hchk
  have hdist' : ∀ i < gates.length, (gAt gates i).inputs.Nodup := by
    intro i hi
    refine hdist _ ?_
    unfold gAt
    rw [List.getD_eq_getElem _ _ hi]
    exact List.getElem_mem hi
  refine ⟨?_, ?_, ?_⟩
  · rw [List.length_flatten, List.map_map]
    exact hsum
  · have := loopF_prunes_nodup gates ow hdist' _ _ _ _ [] _ _
      (initDeps_length gates) (by simp) (init_inc_iff gates) List.nodup_nil
      (fun w hw => absurd hw (List.not_mem_nil w)) hF
    simpa using this
  · obtain ⟨idxss, _, _, _, _, _, _, _, A8, _⟩ :=
      loopF_main_weak gates ow _ _ _ _ _ _ (initDeps_length gates) (by simp)
        (init_inc_iff gates) hF
    intro w hw
    rw [List.mem_flatten] at hw
    obtain ⟨l, hl, hwl⟩ := hw
    rw [List.mem_map] at hl
    obtain ⟨layer, hlayer, rfl⟩ := hl
    obtain ⟨r, hr, hrl⟩ := List.mem_iff_getElem.mp hlayer
    have hw' : w ∈ (L.getD r default).prunes := by
      rw [List.getD_eq_getElem _ _ hr, hrl]
      exact hwl
    have := (A8 r w hw').1
    simpa using this

/-- C3 witness instance. -/
theorem claim_C3_witness :
    (([(⟨[Gate.Binary BinaryOp.And 0 1 2], [0, 1]⟩ : Layer)].map
        Layer.prunes).flatten).length = 3 - [2].length ∧
    (([(⟨[Gate.Binary BinaryOp.And 0 1 2], [0, 1]⟩ : Layer)].map
        Layer.prunes).flatten).Nodup ∧
    (∀ w ∈ ([(⟨[Gate.Binary BinaryOp.And 0 1 2], [0, 1]⟩ : Layer)].map
        Layer.prunes).flatten, w ∉ [2]) :=
  claim_C3_liveness [Gate.Binary BinaryOp.And 0 1 2] 3 [0, 1] [2]
    [⟨[Gate.Binary BinaryOp.And 0 1 2], [0, 1]⟩] (by decide) (by decide)

/-! ### Claims C4 and C5 -/

/-- C5: topological validity.  Valid input = declared input wires distinct,
gate output wires distinct (single assignment) and not themselves declared
inputs, and the run accepted (assertions pass).  Every operand wire of a
gate in layer r is a declared input wire or the output wire of a gate in a
strictly earlier layer. -/
theorem claim_C5_topological_validity :
    ∀ (gates : List Gate) (wc : Nat) (iw ow : List Nat) (L : List Layer),
    iw.Nodup → (gates.map Gate.out).Nodup → (∀ g ∈ gates, g.out ∉ iw) →
    separate_layers gates wc iw ow = some L →
    ∀ r : Nat, ∀ g ∈ (L.getD r default).gates, ∀ w ∈ g.inputs,
      w ∈ iw ∨ ∃ r' < r, ∃ g' ∈ (L.getD r' default).gates, g'.out = w := by
  intro gates wc iw ow L hiw houts hdisj h
  obtain ⟨incF, hF, hchk⟩ := separate_layers_some h
  obtain ⟨idxss, A1, A2, A4, A5, A6, A7, Atopo, A8⟩ :=
    loopF_main_topo gates ow houts _ _ _ _ [] _ _ (initDeps_length gates) (by simp)
      (init_inc_iff gates)
      (by
        intro i hi
        rw [initDeps_getD gates i hi]
        simp [decCount])
      (by simpa using hiw)
      (by
        intro i hi _
        rw [List.nil_append]
        refine hdisj _ ?_
        unfold gAt
        rw [List.getD_eq_getElem _ _ hi]
        exact List.getElem_mem hi)
      hF
  intro r g hg w hw
  have hgm := A2 r
  rw [hgm] at hg
  rw [List.mem_map] at hg
  obtain ⟨i, hi, rfl⟩ := hg
  have htopo := Atopo r i hi w (by
    show w ∈ (gAt gates i).inputs
    exact hw)
  rcases htopo with hmem | ⟨r', hr', i', hi', hout⟩
  · rw [List.nil_append] at hmem
    exact Or.inl hmem
  · right
    refine ⟨r', hr', gates.getD i' default, ?_, hout⟩
    rw [A2 r', List.mem_map]
    exact ⟨i', hi', rfl⟩

/-- C5 witness instance: a two-layer chain Copy(0)→1, Copy(1)→2, looking at
the second layer's gate and its operand wire 1. -/
theorem claim_C5_witness :
    (1 : Nat) ∈ ([0] : List Nat) ∨ ∃ r' < 1,
      ∃ g' ∈ (([⟨[Gate.Unary UnaryOp.Copy 0 1], [0]⟩,
        ⟨[Gate.Unary UnaryOp.Copy 1 2], [1]⟩] : List Layer).getD r' default).gates,
        g'.out = 1 :=
  claim_C5_topological_validity
    [Gate.Unary UnaryOp.Copy 1 2, Gate.Unary UnaryOp.Copy 0 1] 3 [0] [2]
    [⟨[Gate.Unary UnaryOp.Copy 0 1], [0]⟩, ⟨[Gate.Unary UnaryOp.Copy 1 2], [1]⟩]
    (by decide) (by decide) (by decide) (by decide) 1
    (Gate.Unary UnaryOp.Copy 1 2) (by decide) 1 (by decide)

/-- C4: layer independence — under the same validity hypotheses as C5, any
two distinct gates of the same layer are data-independent: neither one's
operand wires contain the other's output wire. -/
theorem claim_C4_layer_independence :
    ∀ (gates : List Gate) (wc : Nat) (iw ow : List Nat) (L : List Layer),
    iw.Nodup → (gates.map Gate.out).Nodup → (∀ g ∈ gates, g.out ∉ iw) →
    separate_layers gates wc iw ow = some L →
    ∀ layer ∈ L, layer.gates.Pairwise
      (fun g1 g2 => g1.out ∉ g2.inputs ∧ g2.out ∉ g1.inputs) := by
  intro gates wc iw ow L hiw houts hdisj h
  obtain ⟨incF, hF, hchk⟩ := separate_layers_some h
  obtain ⟨idxss, A1, A2, A4, A5, A6, A7, Atopo, A8⟩ :=
    loopF_main_topo gates ow houts _ _ _ _ [] _ _ (initDeps_length gates) (by simp)
      (init_inc_iff gates)
      (by
        intro i hi
        rw [initDeps_getD gates i hi]
        simp [decCount])
      (by simpa using hiw)
      (by
        intro i hi _
        rw [List.nil_append]
        refine hdisj _ ?_
        unfold gAt
        rw [List.getD_eq_getElem _ _ hi]
        exact List.getElem_mem hi)
      hF
  intro layer hlayer
  obtain ⟨r, hr, hrl⟩ := List.mem_iff_getElem.mp hlayer
  have hgm : layer.gates = (idxss.getD r []).map (fun i => gates.getD i default) := by
    rw [← hrl, ← List.getD_eq_getElem L default hr]
    exact A2 r
  -- a gate of layer r cannot output an operand of another gate of layer r
  have hkey : ∀ i ∈ idxss.getD r [], ∀ j ∈ idxss.getD r [], i ≠ j →
      (gAt gates j).out ∉ (gAt gates i).inputs := by
    intro i hi j hj hne hmem
    rcases Atopo r i hi _ hmem with hin | ⟨r', hr', i', hi', hout⟩
    · rw [List.nil_append] at hin
      refine hdisj (gAt gates j) ?_ hin
      have hjlt : j < gates.length := (A5 j (mem_getD_flatten hj)).1
      unfold gAt
      rw [List.getD_eq_getElem _ _ hjlt]
      exact List.getElem_mem hjlt
    · have hjlt : j < gates.length := (A5 j (mem_getD_flatten hj)).1
      have hilt : i' < gates.length := (A5 i' (mem_getD_flatten hi')).1
      have : i' = j := out_inj houts hilt hjlt hout
      subst this
      exact nodup_flatten_pair idxss A4 r' r (by omega) i' hi' hj
  rw [hgm, List.pairwise_map]
  have hnd : (idxss.getD r []).Pairwise (fun a b => a ≠ b) := by
    have hsub : idxss.getD r [] ∈ idxss ∨ idxss.getD r [] = [] := by
      by_cases hrlen : r < idxss.length
      · left
        rw [List.getD_eq_getElem _ _ hrlen]
        exact List.getElem_mem hrlen
      · right
        exact getD_of_ge _ _ _ (by omega)
    rcases hsub with hsub | hsub
    · exact List.Nodup.sublist (List.sublist_flatten_of_mem hsub) A4
    · rw [hsub]
      exact List.Pairwise.nil
  refine List.Pairwise.imp_of_mem ?_ hnd
  intro a b ha hb hne
  exact ⟨hkey b hb a ha (fun hx => hne hx.symm), hkey a ha b hb hne⟩

/-- C4 witness instance: two independent gates sharing a layer. -/
theorem claim_C4_witness :
    (⟨[Gate.Binary BinaryOp.And 0 1 2, Gate.Binary BinaryOp.Xor 0 1 3],
        [0, 1]⟩ : Layer).gates.Pairwise
      (fun g1 g2 => g1.out ∉ g2.inputs ∧ g2.out ∉ g1.inputs) :=
  claim_C4_layer_independence
    [Gate.Binary BinaryOp.And 0 1 2, Gate.Binary BinaryOp.Xor 0 1 3] 4 [0, 1] [2, 3]
    [⟨[Gate.Binary BinaryOp.And 0 1 2, Gate.Binary BinaryOp.Xor 0 1 3], [0, 1]⟩]
    (by decide) (by decide) (by decide) (by decide)
    ⟨[Gate.Binary BinaryOp.And 0 1 2, Gate.Binary BinaryOp.Xor 0 1 3], [0, 1]⟩
    (by decide)

/-! ### Claim C6 -/

/-- C6: for a circuit with an empty gate list the scheduling loop produces
zero layers (whatever the declared inputs and outputs), and in general a
layer with no gates is never appended: the loop terminates instead, so every
produced layer has a non-empty gate list. -/
theorem claim_C6_no_empty_layers :
    (∀ (ow : List Nat) (fuel : Nat) (d : List Int) (inc : List Bool) (fr : List Nat),
      loopF [] ow (fuel + 1) d inc fr = some (inc, [])) ∧
    (∀ (wc : Nat) (iw ow : List Nat) (L : List Layer),
      separate_layers [] wc iw ow = some L → L = []) ∧
    (∀ (gates : List Gate) (wc : Nat) (iw ow : List Nat) (L : List Layer),
      separate_layers gates wc iw ow = some L → ∀ l ∈ L, l.gates ≠ []) := by
  refine ⟨loopF_nil_gates, ?_, ?_⟩
  · intro wc iw ow L h
    obtain ⟨incF, hF, _⟩ := separate_layers_some h
    rw [show ([] : List Gate).length + 1 = 0 + 1 from rfl, loopF_nil_gates] at hF
    rw [Option.some.injEq, Prod.mk.injEq] at hF
    exact hF.2.symm
  · intro gates wc iw ow L h l hl
    obtain ⟨incF, hF, _⟩ := separate_layers_some h
    obtain ⟨idxss, A1, A2, A3, _, _, _, _, _, _⟩ :=
      loopF_main_weak gates ow _ _ _ _ _ _ (initDeps_length gates) (by simp)
        (init_inc_iff gates) hF
    obtain ⟨r, hr, hrl⟩ := List.mem_iff_getElem.mp hl
    have hg : l.gates = (idxss.getD r []).map (fun i => gates.getD i default) := by
      rw [← hrl, ← List.getD_eq_getElem L default hr]
      exact A2 r
    intro hnil
    rw [hg] at hnil
    exact A3 r hr (List.map_eq_nil_iff.mp hnil)

/-- C6 witness instance. -/
theorem claim_C6_witness :
    loopF [] [] 1 [] [] [7] = some ([], []) ∧
    ([] : List Layer) = [] ∧
    (⟨[Gate.Binary BinaryOp.And 0 1 2], [0, 1]⟩ : Layer).gates ≠ [] := by
  refine ⟨claim_C6_no_empty_layers.1 [] 0 [] [] [7], ?_, ?_⟩
  · exact claim_C6_no_empty_layers.2.1 5 [] [0, 1, 2, 3, 4] [] (by decide)
  · exact claim_C6_no_empty_layers.2.2 [Gate.Binary BinaryOp.And 0 1 2] 3 [0, 1] [2]
      [⟨[Gate.Binary BinaryOp.And 0 1 2], [0, 1]⟩] (by decide)
      ⟨[Gate.Binary BinaryOp.And 0 1 2], [0, 1]⟩ (by decide)

/-! ### Claim C10 -/

/-- C10: on any input accepted by both copies of separate_layers, the older
src/src variant produces exactly the frontend's layers followed by one extra
empty layer (no gates, no prunes) when the declared input wire list is
non-empty, and exactly the frontend's layers when it is empty. -/
theorem claim_C10_src_trailing_empty_layer :
    ∀ (gates : List Gate) (wc : Nat) (iw ow : List Nat) (L L' : List Layer),
    separate_layers gates wc iw ow = some L →
    separate_layers_src gates wc iw ow = some L' →
    (iw = [] → L' = L) ∧ (iw ≠ [] → L' = L ++ [⟨[], []⟩]) := by
  intro gates wc iw ow L L' hF hB
  obtain ⟨incF, hFl, hFc⟩ := separate_layers_some hF
  obtain ⟨incB, hBl, hBc⟩ := separate_layers_src_some hB
  by_cases hiw : iw = []
  · subst hiw
    rw [loopF_nil_frontier] at hFl
    rw [show gates.length + 2 = (gates.length + 1) + 1 from rfl,
      loopB_nil_frontier] at hBl
    rw [Option.some.injEq, Prod.mk.injEq] at hFl hBl
    refine ⟨fun _ => ?_, fun hne => absurd rfl hne⟩
    rw [← hFl.2, ← hBl.2]
  · have hrel := loopFB_rel gates ow (gates.length + 1) (initDeps gates)
      (List.replicate gates.length false) iw (initDeps_length gates) (by simp)
      (init_inc_iff gates) hiw
    rw [hFl] at hrel
    rw [show gates.length + 2 = (gates.length + 1) + 1 from rfl, hrel] at hBl
    simp only [Option.map_some', Option.some.injEq, Prod.mk.injEq] at hBl
    exact ⟨fun h => absurd h hiw, fun _ => hBl.2.symm⟩

/-- C10 witness instance. -/
theorem claim_C10_witness :
    (([0, 1] : List Nat) = [] →
      ([⟨[Gate.Binary BinaryOp.And 0 1 2], [0, 1]⟩, ⟨[], []⟩] : List Layer) =
        [⟨[Gate.Binary BinaryOp.And 0 1 2], [0, 1]⟩]) ∧
    (([0, 1] : List Nat) ≠ [] →
      ([⟨[Gate.Binary BinaryOp.And 0 1 2], [0, 1]⟩, ⟨[], []⟩] : List Layer) =
        [⟨[Gate.Binary BinaryOp.And 0 1 2], [0, 1]⟩] ++ [⟨[], []⟩]) :=
  claim_C10_src_trailing_empty_layer [Gate.Binary BinaryOp.And 0 1 2] 3 [0, 1] [2]
    [⟨[Gate.Binary BinaryOp.And 0 1 2], [0, 1]⟩]
    [⟨[Gate.Binary BinaryOp.And 0 1 2], [0, 1]⟩, ⟨[], []⟩]
    (by decide) (by decide)

/-! ### Claim C7 -/

theorem seedInputs_cons {T : Type} (lbl : CircuitLabel) (rest : List CircuitLabel)
    (ins : String → Option (List T)) (ws : Nat → Option T) :
    seedInputs (lbl :: rest) ins ws =
      (match ins lbl.name with
       | none => .error (.missingInput lbl.name)
       | some vals =>
         if vals.length = lbl.bits then seedInputs rest ins (seedLabel ws lbl vals)
         else .error (.lengthMismatch lbl.name)) := rfl

theorem seedInputs_mismatch {T : Type} (ins : String → Option (List T)) :
    ∀ (labels : List CircuitLabel) (ws : Nat → Option T),
    (∀ lbl ∈ labels, (ins lbl.name).isSome) →
    (∃ lbl ∈ labels, ∀ vals, ins lbl.name = some vals → vals.length ≠ lbl.bits) →
    ∃ lbl ∈ labels, (∃ vals, ins lbl.name = some vals ∧ vals.length ≠ lbl.bits) ∧
      seedInputs labels ins ws = .error (.lengthMismatch lbl.name) := by
  intro labels
  induction labels with
  | nil =>
    intro ws _ hex
    obtain ⟨lbl, hmem, _⟩ := hex
    exact absurd hmem (List.not_mem_nil lbl)
  | cons lbl rest ih =>
    intro ws hsome hex
    rcases hv : ins lbl.name with _ | vals
    · have := hsome lbl (List.mem_cons_self lbl rest)
      rw [hv] at this
      exact absurd this (by simp)
    · by_cases hlen : vals.length = lbl.bits
      · -- the head label is fine; the offender is in the tail
        have hex' : ∃ l ∈ rest, ∀ vals', ins l.name = some vals' →
            vals'.length ≠ l.bits := by
          obtain ⟨l, hmem, hbad⟩ := hex
          rcases List.mem_cons.mp hmem with rfl | hmem'
          · exact absurd hlen (hbad vals hv)
          · exact ⟨l, hmem', hbad⟩
        obtain ⟨l, hmem, hvals, hrun⟩ :=
          ih (seedLabel ws lbl vals) (fun l hl => hsome l (List.mem_cons_of_mem _ hl)) hex'
        refine ⟨l, List.mem_cons_of_mem _ hmem, hvals, ?_⟩
        rw [show seedInputs (lbl :: rest) ins ws =
            seedInputs rest ins (seedLabel ws lbl vals) by
          rw [seedInputs_cons, hv]
          simp only [if_pos hlen]]
        exact hrun
      · refine ⟨lbl, List.mem_cons_self lbl rest, ⟨vals, hv, hlen⟩, ?_⟩
        rw [seedInputs_cons, hv]
        simp only [if_neg hlen]

/-- C7: if every declared input label is supplied but some label's value
list has the wrong length, eval fails with a length-mismatch error naming an
offending label, independently of the circuit's layers (so before any layer
computation), and returns no output map. -/
theorem claim_C7_input_length_mismatch :
    ∀ (T : Type) (ops : BoolOps T) (c : LayeredCircuit)
      (ins : String → Option (List T)),
    (∀ lbl ∈ c.inputs, (ins lbl.name).isSome) →
    (∃ lbl ∈ c.inputs, ∀ vals, ins lbl.name = some vals → vals.length ≠ lbl.bits) →
    ∃ lbl ∈ c.inputs, (∃ vals, ins lbl.name = some vals ∧ vals.length ≠ lbl.bits) ∧
      ∀ layers' : List Layer,
        evalLC ops { c with layers := layers' } ins =
          .error (.lengthMismatch lbl.name) := by
  intro T ops c ins hsome hex
  obtain ⟨lbl, hmem, hvals, hrun⟩ :=
    seedInputs_mismatch ins c.inputs (fun _ => none) hsome hex
  refine ⟨lbl, hmem, hvals, ?_⟩
  intro layers'
  unfold evalLC
  rw [hrun]
  rfl

/-- C7 witness instance: label x declares 4 bits, 3 values are supplied. -/
theorem claim_C7_witness :
    evalLC boolOps ⟨5, [⟨"x", 0, 4⟩], [], []⟩
      (fun s => if s = "x" then some [true, true, true] else none) =
      .error (.lengthMismatch "x") := by
  obtain ⟨lbl, hmem, _, hrun⟩ := claim_C7_input_length_mismatch Bool boolOps
    ⟨5, [⟨"x", 0, 4⟩], [], []⟩
    (fun s => if s = "x" then some [true, true, true] else none)
    (by
      intro lbl hl
      simp only [List.mem_singleton] at hl
      subst hl
      rfl)
    ⟨⟨"x", 0, 4⟩, by simp, by
      intro vals hv
      simp only [if_true, Option.some.injEq] at hv
      subst hv
      decide⟩
  simp only [List.mem_singleton] at hmem
  subst hmem
  exact hrun []

/-! ### Claim C9 -/

theorem seedInputs_congr {T : Type} (ins1 ins2 : String → Option (List T)) :
    ∀ (labels : List CircuitLabel) (ws : Nat → Option T),
    (∀ lbl ∈ labels, ins1 lbl.name = ins2 lbl.name) →
    seedInputs labels ins1 ws = seedInputs labels ins2 ws := by
  intro labels
  induction labels with
  | nil => intro ws _; rfl
  | cons lbl rest ih =>
    intro ws hag
    have hhead := hag lbl (List.mem_cons_self lbl rest)
    rw [seedInputs_cons, seedInputs_cons, ← hhead]
    rcases hv : ins1 lbl.name with _ | vals
    · rfl
    · by_cases hlen : vals.length = lbl.bits
      · simp only [if_pos hlen]
        exact ih _ (fun l hl => hag l (List.mem_cons_of_mem _ hl))
      · simp only [if_neg hlen]

/-- C9: eval reads the supplied assignment only at the declared input label
names — two assignments agreeing there produce identical results; entries
under other names are ignored, never rejected. -/
theorem claim_C9_eval_reads_only_declared_inputs :
    ∀ (T : Type) (ops : BoolOps T) (c : LayeredCircuit)
      (ins1 ins2 : String → Option (List T)),
    (∀ lbl ∈ c.inputs, ins1 lbl.name = ins2 lbl.name) →
    evalLC ops c ins1 = evalLC ops c ins2 := by
  intro T ops c ins1 ins2 hag
  unfold evalLC
  rw [seedInputs_congr ins1 ins2 c.inputs _ hag]

/-- C9 witness instance: an extra entry under an undeclared name does not
change the result. -/
theorem claim_C9_witness :
    evalLC boolOps ⟨3, [⟨"x", 0, 2⟩], [⟨"main", 2, 1⟩],
        [⟨[Gate.Binary BinaryOp.And 0 1 2], [0, 1]⟩]⟩
      (fun s => if s = "x" then some [true, false] else none) =
    evalLC boolOps ⟨3, [⟨"x", 0, 2⟩], [⟨"main", 2, 1⟩],
        [⟨[Gate.Binary BinaryOp.And 0 1 2], [0, 1]⟩]⟩
      (fun s => if s = "x" then some [true, false] else some [true]) :=
  claim_C9_eval_reads_only_declared_inputs Bool boolOps
    ⟨3, [⟨"x", 0, 2⟩], [⟨"main", 2, 1⟩], [⟨[Gate.Binary BinaryOp.And 0 1 2], [0, 1]⟩]⟩
    (fun s => if s = "x" then some [true, false] else none)
    (fun s => if s = "x" then some [true, false] else some [true])
    (by
      intro lbl hl
      simp only [List.mem_singleton] at hl
      subst hl
      rfl)

/-! ### Claim C8 -/

/-- C8: io_labels sorts the (name, start-index) entries by start index
ascending, zips them positionally against the width list (label i gets the
i-th width, covering wires [start, start+width)), and succeeds exactly when
the number of distinct names equals the number of supplied widths. -/
theorem claim_C8_io_labels :
    ∀ (entries : List (String × Nat)) (widths : List Nat),
    (entries.map Prod.fst).Nodup →
    (∀ ls, io_labels entries widths = some ls →
      (ls.map CircuitLabel.start).Sorted (· ≤ ·) ∧
      ls.map CircuitLabel.bits = widths ∧
      (ls.map (fun l => (l.name, l.start))).Perm entries) ∧
    ((io_labels entries widths).isSome ↔ entries.length = widths.length) := by
  intro entries widths _
  have hperm : (entries.mergeSort (fun a b => a.2 ≤ b.2)).Perm entries :=
    List.mergeSort_perm entries _
  have hlen : (entries.mergeSort (fun a b => a.2 ≤ b.2)).length = entries.length :=
    hperm.length_eq
  constructor
  · intro ls hls
    unfold io_labels at hls
    by_cases hc : (entries.mergeSort (fun a b => a.2 ≤ b.2)).length = widths.length
    · rw [if_pos hc, Option.some.injEq] at hls
      subst hls
      have hsorted : List.Pairwise
          (fun a b : String × Nat => (decide (a.2 ≤ b.2)) = true)
          (entries.mergeSort (fun a b => a.2 ≤ b.2)) := by
        refine List.sorted_mergeSort ?_ ?_ entries
        · intro a b c hab hbc
          rw [decide_eq_true_iff] at hab hbc
          rw [decide_eq_true_iff]
          omega
        · intro a b
          rw [Bool.or_eq_true, decide_eq_true_iff, decide_eq_true_iff]
          omega
      have hfst : ((entries.mergeSort (fun a b => a.2 ≤ b.2)).zip widths).map
          Prod.fst = entries.mergeSort (fun a b => a.2 ≤ b.2) :=
        List.map_fst_zip _ _ (le_of_eq hc)
      refine ⟨?_, ?_, ?_⟩
      · rw [show ((((entries.mergeSort (fun a b => a.2 ≤ b.2)).zip widths).map
            (fun p => (⟨p.1.1, p.1.2, p.2⟩ : CircuitLabel))).map CircuitLabel.start) =
            (((entries.mergeSort (fun a b => a.2 ≤ b.2)).zip widths).map
              (fun p => p.1.2)) from by rw [List.map_map]; rfl]
        rw [show (((entries.mergeSort (fun a b => a.2 ≤ b.2)).zip widths).map
            (fun p => p.1.2)) = ((((entries.mergeSort (fun a b => a.2 ≤ b.2)).zip
              widths).map Prod.fst).map (fun e => e.2)) from by
          rw [List.map_map]; rfl]
        rw [hfst]
        unfold List.Sorted
        rw [List.pairwise_map]
        refine List.Pairwise.imp ?_ hsorted
        intro a b h
        rw [decide_eq_true_iff] at h
        exact h
      · rw [show ((((entries.mergeSort (fun a b => a.2 ≤ b.2)).zip widths).map
            (fun p => (⟨p.1.1, p.1.2, p.2⟩ : CircuitLabel))).map CircuitLabel.bits) =
            (((entries.mergeSort (fun a b => a.2 ≤ b.2)).zip widths).map
              Prod.snd) from by rw [List.map_map]; rfl]
        exact List.map_snd_zip _ _ (ge_of_eq hc)
      · rw [show ((((entries.mergeSort (fun a b => a.2 ≤ b.2)).zip widths).map
            (fun p => (⟨p.1.1, p.1.2, p.2⟩ : CircuitLabel))).map
              (fun l => (l.name, l.start))) =
            (((entries.mergeSort (fun a b => a.2 ≤ b.2)).zip widths).map
              Prod.fst) from by
          rw [List.map_map]
          refine List.map_congr_left (fun p _ => ?_)
          rfl]
        rw [hfst]
        exact hperm
    · rw [if_neg hc] at hls
      exact absurd hls (by simp)
  · unfold io_labels
    by_cases hc : (entries.mergeSort (fun a b => a.2 ≤ b.2)).length = widths.length
    · rw [if_pos hc]
      simp only [Option.isSome_some, true_iff]
      omega
    · rw [if_neg hc]
      simp only [Option.isSome_none]
      constructor
      · intro h
        exact absurd h (by simp)
      · intro h
        omega

/-- C8 witness instance: two labels declared out of order by name, recovered
by start index. -/
theorem claim_C8_witness :
    ((([⟨"a", 0, 4⟩, ⟨"b", 4, 2⟩] : List CircuitLabel).map
        CircuitLabel.start).Sorted (· ≤ ·) ∧
      ([⟨"a", 0, 4⟩, ⟨"b", 4, 2⟩] : List CircuitLabel).map CircuitLabel.bits =
        [4, 2] ∧
      ((([⟨"a", 0, 4⟩, ⟨"b", 4, 2⟩] : List CircuitLabel).map
        (fun l => (l.name, l.start))).Perm [("b", 4), ("a", 0)])) ∧
    ((io_labels [("b", 4), ("a", 0)] [4, 2]).isSome ↔
      ([("b", 4), ("a", 0)] : List (String × Nat)).length = [4, 2].length) := by
  have h := claim_C8_io_labels [("b", 4), ("a", 0)] [4, 2] (by decide)
  exact ⟨h.1 [⟨"a", 0, 4⟩, ⟨"b", 4, 2⟩] (by simp [io_labels, List.mergeSort]), h.2⟩

/-! ### Wire-table lemmas for the evaluation claims -/

theorem updWire_self {T : Type} (ws : Nat → Option T) (w : Nat) (v : T) :
    updWire ws w v w = some v := by
  simp [updWire]

theorem updWire_other {T : Type} (ws : Nat → Option T) (w x : Nat) (v : T)
    (h : x ≠ w) : updWire ws w v x = ws x := by
  simp [updWire, h]

theorem delWire_other {T : Type} (ws : Nat → Option T) (w x : Nat) (h : x ≠ w) :
    delWire ws w x = ws x := by
  simp [delWire, h]

theorem TSub_upd {T : Type} {W V : Nat → Option T} (h : TSub W V) {w : Nat} {v : T}
    (hv : V w = some v) : TSub (updWire W w v) V := by
  intro x u hx
  by_cases hxw : x = w
  · subst hxw
    rw [updWire_self] at hx
    rw [Option.some.injEq] at hx
    rw [← hx]
    exact hv
  · rw [updWire_other _ _ _ _ hxw] at hx
    exact h x u hx

theorem TSub_del {T : Type} {W V : Nat → Option T} (h : TSub W V) (w : Nat) :
    TSub (delWire W w) V := by
  intro x u hx
  by_cases hxw : x = w
  · subst hxw
    simp [delWire] at hx
  · rw [delWire_other _ _ _ hxw] at hx
    exact h x u hx

theorem seed_fold_apply {T : Type} :
    ∀ (vals : List T) (s k : Nat) (ws : Nat → Option T) (x : Nat),
    ((List.enumFrom k vals).foldl (fun w p => updWire w (s + p.1) p.2) ws) x =
      if s + k ≤ x ∧ x - (s + k) < vals.length
      then vals[x - (s + k)]? else ws x := by
  intro vals
  induction vals with
  | nil =>
    intro s k ws x
    simp
  | cons v vs ih =>
    intro s k ws x
    rw [List.enumFrom_cons, List.foldl_cons]
    rw [ih s (k + 1) (updWire ws (s + k) v) x]
    simp only [List.length_cons]
    rcases Nat.lt_or_ge x (s + k) with hlt | hge
    · rw [if_neg (by omega), if_neg (by omega)]
      exact updWire_other _ _ _ _ (by omega)
    · rcases Nat.eq_or_lt_of_le hge with heq | hgt
      · rw [if_neg (by omega), if_pos (by omega)]
        rw [show x - (s + k) = 0 by omega, List.getElem?_cons_zero, ← heq]
        exact updWire_self _ _ _
      · have hd : x - (s + k) = (x - (s + k + 1)) + 1 := by omega
        by_cases hin : x - (s + k + 1) < vs.length
        · rw [if_pos (by omega), if_pos (by constructor <;> omega)]
          rw [hd, List.getElem?_cons_succ]
          rw [show s + (k + 1) = s + k + 1 by omega]
        · rw [if_neg (by omega), if_neg (by push_neg; intro; omega)]
          exact updWire_other _ _ _ _ (by omega)

theorem seedLabel_apply {T : Type} (ws : Nat → Option T) (lbl : CircuitLabel)
    (vals : List T) (x : Nat) :
    seedLabel ws lbl vals x =
      if lbl.start ≤ x ∧ x - lbl.start < vals.length
      then vals[x - lbl.start]? else ws x := by
  unfold seedLabel
  rw [show vals.enum = List.enumFrom 0 vals from rfl]
  rw [seed_fold_apply vals lbl.start 0 ws x]
  simp

theorem mem_ioWires_single {lbl : CircuitLabel} {x : Nat} :
    x ∈ (List.range lbl.bits).map (fun i => lbl.start + i) ↔
      lbl.start ≤ x ∧ x - lbl.start < lbl.bits := by
  rw [List.mem_map]
  constructor
  · rintro ⟨i, hi, rfl⟩
    rw [List.mem_range] at hi
    omega
  · rintro ⟨h1, h2⟩
    exact ⟨x - lbl.start, List.mem_range.mpr h2, by omega⟩

theorem ioWires_cons (lbl : CircuitLabel) (rest : List CircuitLabel) :
    ioWires (lbl :: rest) =
      ((List.range lbl.bits).map (fun i => lbl.start + i)) ++ ioWires rest := rfl

theorem seedInputs_ok {T : Type} (ins : String → Option (List T)) :
    ∀ (labels : List CircuitLabel) (ws : Nat → Option T),
    (∀ lbl ∈ labels, ∃ vals, ins lbl.name = some vals ∧ vals.length = lbl.bits) →
    ∃ W', seedInputs labels ins ws = .ok W' ∧
      (∀ x, x ∉ ioWires labels → W' x = ws x) ∧
      (∀ x ∈ ioWires labels, (W' x).isSome = true) := by
  intro labels
  induction labels with
  | nil =>
    intro ws _
    exact ⟨ws, rfl, fun x _ => rfl, fun x hx => absurd hx (List.not_mem_nil x)⟩
  | cons lbl rest ih =>
    intro ws hins
    obtain ⟨vals, hv, hlen⟩ := hins lbl (List.mem_cons_self lbl rest)
    obtain ⟨W', hrun, hout, hin⟩ :=
      ih (seedLabel ws lbl vals) (fun l hl => hins l (List.mem_cons_of_mem _ hl))
    refine ⟨W', ?_, ?_, ?_⟩
    · rw [seedInputs_cons, hv]
      simp only [if_pos hlen]
      exact hrun
    · intro x hx
      rw [ioWires_cons, List.mem_append] at hx
      push_neg at hx
      rw [hout x hx.2, seedLabel_apply]
      rw [if_neg (by
        intro hc
        exact hx.1 (mem_ioWires_single.mpr ⟨hc.1, by omega⟩))]
    · intro x hx
      rw [ioWires_cons, List.mem_append] at hx
      by_cases hxr : x ∈ ioWires rest
      · exact hin x hxr
      · rcases hx with hx | hx
        · rw [hout x hxr, seedLabel_apply]
          have hx' := mem_ioWires_single.mp hx
          rw [if_pos ⟨hx'.1, by omega⟩]
          rw [List.getElem?_eq_getElem (by omega)]
          rfl
        · exact absurd hx hxr

theorem evalGate_congr {T : Type} (ops : BoolOps T) {W V : Nat → Option T} (g : Gate)
    (h : ∀ w ∈ g.inputs, W w = V w) : evalGate ops W g = evalGate ops V g := by
  rcases g with ⟨op, a, o⟩ | ⟨op, a, b, o⟩
  · have ha := h a (by simp [Gate.inputs])
    simp only [evalGate]
    rw [ha]
  · have ha := h a (by simp [Gate.inputs])
    have hb := h b (by simp [Gate.inputs])
    simp only [evalGate]
    rw [ha, hb]

theorem evalGate_ok_of_present {T : Type} (ops : BoolOps T) {W : Nat → Option T}
    (g : Gate) (h : ∀ w ∈ g.inputs, (W w).isSome = true) :
    ∃ v, evalGate ops W g = .ok (g.out, v) := by
  rcases g with ⟨op, a, o⟩ | ⟨op, a, b, o⟩
  · have ha := h a (by simp [Gate.inputs])
    rcases hva : W a with _ | va
    · rw [hva] at ha
      exact absurd ha (by simp)
    · exact ⟨_, by simp only [evalGate]; rw [hva]; rfl⟩
  · have ha := h a (by simp [Gate.inputs])
    have hb := h b (by simp [Gate.inputs])
    rcases hva : W a with _ | va
    · rw [hva] at ha
      exact absurd ha (by simp)
    · rcases hvb : W b with _ | vb
      · rw [hvb] at hb
        exact absurd hb (by simp)
      · exact ⟨_, by simp only [evalGate]; rw [hva, hvb]; rfl⟩

theorem gAt_cons_zero (g : Gate) (rest : List Gate) : gAt (g :: rest) 0 = g := rfl

theorem gAt_cons_succ (g : Gate) (rest : List Gate) (j : Nat) :
    gAt (g :: rest) (j + 1) = gAt rest j := rfl

/-- Characterization of the reference interpreter's gate fold: when every
gate's operands are already present or produced by an earlier gate, the
outputs are fresh and pairwise distinct, the fold succeeds and the final
table is consistent with every gate and untouched elsewhere. -/
theorem refRun_ok {T : Type} (ops : BoolOps T) :
    ∀ (gates : List Gate) (W : Nat → Option T),
    (∀ j < gates.length, ∀ w ∈ (gAt gates j).inputs,
      (W w).isSome = true ∨ ∃ j' < j, (gAt gates j').out = w) →
    (gates.map Gate.out).Nodup →
    (∀ j < gates.length, W ((gAt gates j).out) = none) →
    ∃ V, gates.foldlM
        (fun w g => (evalGate ops w g).map (fun p => updWire w p.1 p.2)) W = .ok V ∧
      (∀ x, x ∉ gates.map Gate.out → V x = W x) ∧
      (∀ j < gates.length, GateConsistent ops V (gAt gates j)) := by
  intro gates
  induction gates with
  | nil =>
    intro W _ _ _
    exact ⟨W, rfl, fun x _ => rfl, fun j hj => absurd hj (by simp)⟩
  | cons g rest ih =>
    intro W htopo houts hfresh
    -- gate g's operands are all present in W
    have hpres : ∀ w ∈ g.inputs, (W w).isSome = true := by
      intro w hw
      rcases htopo 0 (by simp) w (by rw [gAt_cons_zero]; exact hw) with h | ⟨j', hj', _⟩
      · exact h
      · omega
    obtain ⟨v, hgv⟩ := evalGate_ok_of_present ops g hpres
    have houts' : (rest.map Gate.out).Nodup := by
      rw [List.map_cons, List.nodup_cons] at houts
      exact houts.2
    have hgout : g.out ∉ rest.map Gate.out := by
      rw [List.map_cons, List.nodup_cons] at houts
      exact houts.1
    have hrest_out : ∀ j < rest.length, (gAt rest j).out ∈ rest.map Gate.out := by
      intro j hj
      rw [List.mem_map]
      refine ⟨gAt rest j, ?_, rfl⟩
      unfold gAt
      rw [List.getD_eq_getElem _ _ hj]
      exact List.getElem_mem hj
    obtain ⟨V, hrun, hVout, hVcons⟩ := ih (updWire W g.out v)
      (by
        intro j hj w hw
        rcases htopo (j + 1) (by simpa using hj) w
            (by rw [gAt_cons_succ]; exact hw) with h | ⟨j', hj', hout⟩
        · left
          by_cases hwo : w = g.out
          · subst hwo
            rw [updWire_self]
            rfl
          · rw [updWire_other _ _ _ _ hwo]
            exact h
        · match j', hj', hout with
          | 0, _, hout =>
            left
            rw [gAt_cons_zero] at hout
            rw [← hout, updWire_self]
            rfl
          | j' + 1, hj', hout =>
            right
            rw [gAt_cons_succ] at hout
            exact ⟨j', by omega, hout⟩)
      houts'
      (by
        intro j hj
        have hne : (gAt rest j).out ≠ g.out := by
          intro h
          rw [← h] at hgout
          exact hgout (hrest_out j hj)
        rw [updWire_other _ _ _ _ hne]
        exact hfresh (j + 1) (by simpa using hj))
    refine ⟨V, ?_, ?_, ?_⟩
    · rw [List.foldlM_cons, hgv]
      simpa using hrun
    · intro x hx
      rw [List.map_cons, List.mem_cons] at hx
      push_neg at hx
      rw [hVout x hx.2, updWire_other _ _ _ _ hx.1]
    · intro j hj
      match j, hj with
      | 0, _ =>
        rw [gAt_cons_zero]
        -- V agrees with W on g's operands and stores v at g.out
        have hVgout : V g.out = some v := by
          rw [hVout g.out hgout, updWire_self]
        have hagree : ∀ w ∈ g.inputs, V w = W w := by
          intro w hw
          have hwi := hpres w hw
          have hwnr : w ∉ rest.map Gate.out := by
            intro hmem
            rw [List.mem_map] at hmem
            obtain ⟨g', hg', hout⟩ := hmem
            obtain ⟨j', hj', hgj⟩ := List.mem_iff_getElem.mp hg'
            have : W ((gAt rest j').out) = none := by
              have hne : (gAt rest j').out ≠ g.out := by
                intro h
                rw [← h] at hgout
                exact hgout (hrest_out j' hj')
              have := hfresh (j' + 1) (by simpa using hj')
              rw [gAt_cons_succ] at this
              exact this
            rw [show gAt rest j' = g' by
              unfold gAt
              rw [List.getD_eq_getElem _ _ hj']
              exact hgj] at this
            rw [hout] at this
            rw [this] at hwi
            exact absurd hwi (by simp)
          have hwng : w ≠ g.out := by
            intro h
            have := hfresh 0 (by simp)
            rw [gAt_cons_zero] at this
            rw [← h] at this
            rw [this] at hwi
            exact absurd hwi (by simp)
          rw [hVout w hwnr, updWire_other _ _ _ _ hwng]
        refine ⟨v, ?_, hVgout⟩
        rw [evalGate_congr ops g hagree]
        exact hgv
      | j + 1, hj =>
        rw [gAt_cons_succ]
        exact hVcons j (by simpa using hj)

theorem mapM_ok {E α β : Type} (g : α → β) :
    ∀ (l : List α) (f : α → Except E β),
    (∀ a ∈ l, f a = .ok (g a)) → l.mapM f = .ok (l.map g) := by
  intro l
  induction l with
  | nil => intro f _; rfl
  | cons a t ih =>
    intro f h
    rw [List.mapM_cons, h a (List.mem_cons_self a t),
      ih f (fun x hx => h x (List.mem_cons_of_mem _ hx))]
    rfl

theorem upd_presence {T : Type} (W : Nat → Option T) (k x : Nat) (v : T)
    (h : (W x).isSome = true) : ((updWire W k v) x).isSome = true := by
  by_cases hx : x = k
  · subst hx
    rw [updWire_self]
    rfl
  · rw [updWire_other _ _ _ _ hx]
    exact h

theorem foldl_upd_sub {T : Type} (V : Nat → Option T) :
    ∀ (pairs : List (Nat × T)) (W : Nat → Option T), TSub W V →
    (∀ p ∈ pairs, V p.1 = some p.2) →
    TSub (pairs.foldl (fun w p => updWire w p.1 p.2) W) V := by
  intro pairs
  induction pairs with
  | nil => intro W h _; exact h
  | cons p t ih =>
    intro W h hv
    rw [List.foldl_cons]
    exact ih _ (TSub_upd h (hv p (List.mem_cons_self p t)))
      (fun q hq => hv q (List.mem_cons_of_mem _ hq))

theorem foldl_upd_presence {T : Type} :
    ∀ (pairs : List (Nat × T)) (W : Nat → Option T) (x : Nat),
    (W x).isSome = true →
    ((pairs.foldl (fun w p => updWire w p.1 p.2) W) x).isSome = true := by
  intro pairs
  induction pairs with
  | nil => intro W x h; exact h
  | cons p t ih =>
    intro W x h
    rw [List.foldl_cons]
    exact ih _ x (upd_presence W p.1 x p.2 h)

theorem foldl_upd_written {T : Type} :
    ∀ (pairs : List (Nat × T)) (W : Nat → Option T) (x : Nat),
    x ∈ pairs.map Prod.fst →
    ((pairs.foldl (fun w p => updWire w p.1 p.2) W) x).isSome = true := by
  intro pairs
  induction pairs with
  | nil =>
    intro W x h
    exact absurd h (by simp)
  | cons p t ih =>
    intro W x h
    rw [List.foldl_cons]
    rw [List.map_cons, List.mem_cons] at h
    by_cases hx : x ∈ t.map Prod.fst
    · exact ih _ x hx
    · rcases h with h | h
      · subst h
        refine foldl_upd_presence t _ _ ?_
        rw [updWire_self]
        rfl
      · exact absurd h hx

theorem foldl_del_sub {T : Type} (V : Nat → Option T) :
    ∀ (prunes : List Nat) (W : Nat → Option T), TSub W V →
    TSub (prunes.foldl (fun w p => delWire w p) W) V := by
  intro prunes
  induction prunes with
  | nil => intro W h; exact h
  | cons p t ih =>
    intro W h
    rw [List.foldl_cons]
    exact ih _ (TSub_del h p)

theorem foldl_del_other {T : Type} :
    ∀ (prunes : List Nat) (W : Nat → Option T) (x : Nat), x ∉ prunes →
    (prunes.foldl (fun w p => delWire w p) W) x = W x := by
  intro prunes
  induction prunes with
  | nil => intro W x _; rfl
  | cons p t ih =>
    intro W x h
    rw [List.foldl_cons]
    rw [List.mem_cons] at h
    push_neg at h
    rw [ih _ x h.2, delWire_other _ _ _ h.1]

theorem evalLayer_ok {T : Type} (ops : BoolOps T) (W : Nat → Option T) (layer : Layer)
    (assigns : List (Nat × T)) (h : layer.gates.mapM (evalGate ops W) = .ok assigns) :
    evalLayer ops W layer = .ok (layer.prunes.foldl (fun w p => delWire w p)
      (assigns.foldl (fun w p => updWire w p.1 p.2) W)) := by
  unfold evalLayer
  rw [h]
  rfl

theorem mapM_evalGate_ok {T : Type} (ops : BoolOps T) (W V : Nat → Option T) :
    ∀ (gs : List Gate),
    (∀ g ∈ gs, evalGate ops W g = evalGate ops V g ∧ GateConsistent ops V g) →
    ∃ assigns : List (Nat × T), gs.mapM (evalGate ops W) = .ok assigns ∧
      assigns.map Prod.fst = gs.map Gate.out ∧
      (∀ p ∈ assigns, V p.1 = some p.2) := by
  intro gs
  induction gs with
  | nil =>
    intro _
    exact ⟨[], rfl, rfl, fun p hp => absurd hp (List.not_mem_nil p)⟩
  | cons g t ih =>
    intro h
    obtain ⟨hcongr, v, hok, hv⟩ := h g (List.mem_cons_self g t)
    obtain ⟨assigns, hrun, hfst, hval⟩ :=
      ih (fun g' hg' => h g' (List.mem_cons_of_mem _ hg'))
    refine ⟨(g.out, v) :: assigns, ?_, ?_, ?_⟩
    · rw [List.mapM_cons, hcongr, hok, hrun]
      rfl
    · rw [List.map_cons, List.map_cons, hfst]
    · intro p hp
      rcases List.mem_cons.mp hp with rfl | hp'
      · exact hv
      · exact hval p hp'

/-- The layered evaluation: starting from a table below the reference table
V, executing the remaining layers succeeds, stays below V, and keeps every
wire that is present or produced and never pruned. -/
theorem evalLayers_run {T : Type} (ops : BoolOps T) (gates : List Gate)
    (V : Nat → Option T)
    (hcons : ∀ j < gates.length, GateConsistent ops V (gAt gates j)) :
    ∀ (idxss : List (List Nat)) (L : List Layer) (done : List Nat)
      (W : Nat → Option T),
    idxss.length = L.length →
    (∀ r : Nat, (L.getD r default).gates =
      (idxss.getD r []).map (fun i => gates.getD i default)) →
    (∀ i ∈ idxss.flatten, i < gates.length) →
    idxss.flatten.Nodup →
    (∀ i ∈ idxss.flatten, i ∉ done) →
    TSub W V →
    (∀ r : Nat, ∀ i ∈ idxss.getD r [], ∀ w ∈ (gAt gates i).inputs,
      (W w).isSome = true ∨
        ∃ r' < r, ∃ i' ∈ idxss.getD r' [], (gAt gates i').out = w) →
    (∀ r : Nat, ∀ w ∈ (L.getD r default).prunes, ∀ k ∈ readers gates w,
      k ∈ done ∨ ∃ r' ≤ r, k ∈ idxss.getD r' []) →
    ∃ W', L.foldlM (evalLayer ops) W = .ok W' ∧ TSub W' V ∧
      (∀ x : Nat, ((W x).isSome = true ∨
          ∃ i ∈ idxss.flatten, (gAt gates i).out = x) →
        (∀ r : Nat, x ∉ (L.getD r default).prunes) → (W' x).isSome = true) := by
  intro idxss
  induction idxss with
  | nil =>
    intro L done W hlen _ _ _ _ hsub _ _
    have hL : L = [] := by
      rcases L with _ | ⟨l, L'⟩
      · rfl
      · simp at hlen
    subst hL
    refine ⟨W, rfl, hsub, ?_⟩
    intro x hx _
    rcases hx with hx | ⟨i, hi, _⟩
    · exact hx
    · exact absurd hi (by simp)
  | cons idxs idxssT ih =>
    intro L done W hlen hgates hlt hnd hdis hsub hready hprune
    rcases L with _ | ⟨layer, Ltail⟩
    · simp at hlen
    have hlen' : idxssT.length = Ltail.length := by simpa using hlen
    have hlayerg : layer.gates = idxs.map (fun i => gates.getD i default) := hgates 0
    have hndl : idxs.Nodup ∧ idxssT.flatten.Nodup ∧
        ∀ i ∈ idxs, i ∉ idxssT.flatten := by
      rw [List.flatten_cons, List.nodup_append] at hnd
      exact ⟨hnd.1, hnd.2.1, hnd.2.2⟩
    have hmemflat : ∀ i ∈ idxs, i ∈ (idxs :: idxssT).flatten := by
      intro i hi
      rw [List.flatten_cons, List.mem_append]
      exact Or.inl hi
    have hmemflatT : ∀ i ∈ idxssT.flatten, i ∈ (idxs :: idxssT).flatten := by
      intro i hi
      rw [List.flatten_cons, List.mem_append]
      exact Or.inr hi
    -- a wire read by a gate of a later layer is never pruned by this layer
    have hnoprune : ∀ w : Nat, (∃ i ∈ idxssT.flatten, w ∈ (gAt gates i).inputs) →
        w ∉ layer.prunes := by
      rintro w ⟨i, hi, hw⟩ hwp
      have hk : i ∈ readers gates w :=
        mem_readers.mpr ⟨hlt i (hmemflatT i hi), hw⟩
      rcases hprune 0 w hwp i hk with hdone | ⟨r', hr', hmem⟩
      · exact hdis i (hmemflatT i hi) hdone
      · have hr0 : r' = 0 := by omega
        subst hr0
        exact hndl.2.2 i hmem hi
    -- evaluate the head layer
    have hgok : ∀ g ∈ layer.gates,
        evalGate ops W g = evalGate ops V g ∧ GateConsistent ops V g := by
      intro g hg
      rw [hlayerg, List.mem_map] at hg
      obtain ⟨i, hi, rfl⟩ := hg
      have hin : i < gates.length := hlt i (hmemflat i hi)
      have hagree : ∀ w ∈ (gates.getD i default).inputs, W w = V w := by
        intro w hw
        rcases hready 0 i hi w hw with hp | ⟨r', hr', _⟩
        · rcases hwv : W w with _ | u
          · rw [hwv] at hp
            exact absurd hp (by simp)
          · rw [hsub w u hwv]
        · omega
      refine ⟨evalGate_congr ops _ hagree, ?_⟩
      exact hcons i hin
    obtain ⟨assigns, hmrun, hfst, hval⟩ := mapM_evalGate_ok ops W V layer.gates hgok
    have hW2 := evalLayer_ok ops W layer assigns hmrun
    set W1 := assigns.foldl (fun w p => updWire w p.1 p.2) W with hW1def
    set W2 := layer.prunes.foldl (fun w p => delWire w p) W1 with hW2def
    have hsub2 : TSub W2 V :=
      foldl_del_sub V _ _ (foldl_upd_sub V _ _ hsub hval)
    have houtfst : assigns.map Prod.fst = idxs.map (fun i => (gAt gates i).out) := by
      rw [hfst, hlayerg, List.map_map]
      rfl
    -- presence carried into the next table
    have hpres2 : ∀ x : Nat, x ∉ layer.prunes →
        ((W x).isSome = true ∨ ∃ i ∈ idxs, (gAt gates i).out = x) →
        (W2 x).isSome = true := by
      intro x hxp hx
      rw [hW2def, foldl_del_other _ _ _ hxp]
      rcases hx with hx | ⟨i, hi, rfl⟩
      · exact foldl_upd_presence _ _ _ hx
      · refine foldl_upd_written _ _ _ ?_
        rw [houtfst, List.mem_map]
        exact ⟨i, hi, rfl⟩
    obtain ⟨W', hrun', hsub', hpres'⟩ := ih Ltail (done ++ idxs) W2 hlen'
      (fun r => hgates (r + 1))
      (fun i hi => hlt i (hmemflatT i hi))
      hndl.2.1
      (by
        intro i hi
        rw [List.mem_append]
        push_neg
        exact ⟨hdis i (hmemflatT i hi), fun hmem => hndl.2.2 i hmem hi⟩)
      hsub2
      (by
        intro r i hi w hw
        rcases hready (r + 1) i hi w hw with hp | ⟨r', hr', i', hi', hout⟩
        · left
          refine hpres2 w (hnoprune w ⟨i, mem_getD_flatten hi, hw⟩) (Or.inl hp)
        · match r', hr', hi', hout with
          | 0, _, hi', hout =>
            left
            exact hpres2 w (hnoprune w ⟨i, mem_getD_flatten hi, hw⟩)
              (Or.inr ⟨i', hi', hout⟩)
          | r' + 1, hr', hi', hout =>
            exact Or.inr ⟨r', by omega, i', hi', hout⟩)
      (by
        intro r w hw k hk
        rcases hprune (r + 1) w hw k hk with hdone | ⟨r', hr', hmem⟩
        · left
          rw [List.mem_append]
          exact Or.inl hdone
        · match r', hr', hmem with
          | 0, _, hmem =>
            left
            rw [List.mem_append]
            exact Or.inr hmem
          | r' + 1, hr', hmem =>
            exact Or.inr ⟨r', by omega, hmem⟩)
    refine ⟨W', ?_, hsub', ?_⟩
    · rw [List.foldlM_cons, hW2]
      simpa using hrun'
    · intro x hx hnp
      refine hpres' x ?_ (fun r => hnp (r + 1))
      rcases hx with hx | ⟨i, hi, rfl⟩
      · exact Or.inl (hpres2 x (hnp 0) (Or.inl hx))
      · rw [List.flatten_cons, List.mem_append] at hi
        rcases hi with hi | hi
        · exact Or.inl (hpres2 _ (hnp 0) (Or.inr ⟨i, hi, rfl⟩))
        · exact Or.inr ⟨i, hi, rfl⟩

theorem mapM_congr {E α β : Type} :
    ∀ (l : List α) (f g : α → Except E β), (∀ a ∈ l, f a = g a) →
    l.mapM f = l.mapM g := by
  intro l
  induction l with
  | nil => intro f g _; rfl
  | cons a t ih =>
    intro f g h
    rw [List.mapM_cons, List.mapM_cons, h a (List.mem_cons_self a t),
      ih f g (fun x hx => h x (List.mem_cons_of_mem _ hx))]

theorem collectOutputs_congr {T : Type} (outs : List CircuitLabel)
    (W1 W2 : Nat → Option T) (h : ∀ x ∈ ioWires outs, W1 x = W2 x) :
    collectOutputs W1 outs = collectOutputs W2 outs := by
  unfold collectOutputs
  refine mapM_congr outs _ _ (fun lbl hlbl => ?_)
  have hinner : (List.range lbl.bits).mapM (fun i =>
      match W1 (lbl.start + i) with
      | some v => Except.ok v
      | none => Except.error (EvalErr.missingWire (lbl.start + i))) =
    (List.range lbl.bits).mapM (fun i =>
      match W2 (lbl.start + i) with
      | some v => Except.ok v
      | none => Except.error (EvalErr.missingWire (lbl.start + i))) := by
    refine mapM_congr _ _ _ (fun i hi => ?_)
    have hw : lbl.start + i ∈ ioWires outs := by
      unfold ioWires
      rw [List.mem_flatMap]
      exact ⟨lbl, hlbl, List.mem_map.mpr ⟨i, hi, rfl⟩⟩
    rw [h _ hw]
  rw [hinner]

/-- C1 (amended): for a circuit accepted by from_bristol whose gate list is
additionally topologically ordered (each operand is a declared input wire or
the output of an earlier-listed gate, the precondition for the reference
interpreter to be defined at all), with distinct declared input wires and
single-assignment outputs disjoint from them, and any exactly-sized input
assignment, layered evaluation returns the same result as the reference
interpreter that runs the gates in original order. -/
theorem claim_C1_eval_matches_reference :
    ∀ (T : Type) (ops : BoolOps T) (gates : List Gate) (wc : Nat)
      (inL outL : List CircuitLabel) (L : List Layer)
      (ins : String → Option (List T)),
    (ioWires inL).Nodup →
    (gates.map Gate.out).Nodup →
    (∀ g ∈ gates, g.out ∉ ioWires inL) →
    (∀ j < gates.length, ∀ w ∈ (gAt gates j).inputs,
      w ∈ ioWires inL ∨ ∃ j' < j, (gAt gates j').out = w) →
    separate_layers gates wc (ioWires inL) (ioWires outL) = some L →
    (∀ lbl ∈ inL, ∃ vals, ins lbl.name = some vals ∧ vals.length = lbl.bits) →
    evalLC ops ⟨wc, inL, outL, L⟩ ins = refEval ops gates inL outL ins := by
  intro T ops gates wc inL outL L ins hiw houts hdisj htopo hacc hins
  obtain ⟨W0, hseed, hW0out, hW0in⟩ := seedInputs_ok ins inL (fun _ => none) hins
  have hfresh : ∀ j < gates.length, W0 ((gAt gates j).out) = none := by
    intro j hj
    refine hW0out _ (hdisj (gAt gates j) ?_)
    unfold gAt
    rw [List.getD_eq_getElem _ _ hj]
    exact List.getElem_mem hj
  obtain ⟨V, hrefrun, hVout, hVcons⟩ := refRun_ok ops gates W0
    (by
      intro j hj w hw
      rcases htopo j hj w hw with hmem | hearlier
      · exact Or.inl (hW0in w hmem)
      · exact Or.inr hearlier)
    houts hfresh
  obtain ⟨incF, hF, hchk⟩ := separate_layers_some hacc
  obtain ⟨hall, _, _⟩ := checkAsserts_true hchk
  obtain ⟨idxss, A1, A2, A4, A5, A6, A7, Atopo, A8⟩ :=
    loopF_main_topo gates (ioWires outL) houts _ _ _ _ [] _ _
      (initDeps_length gates) (by simp) (init_inc_iff gates)
      (by
        intro i hi
        rw [initDeps_getD gates i hi]
        simp [decCount])
      (by simpa using hiw)
      (by
        intro i hi _
        rw [List.nil_append]
        refine hdisj _ ?_
        unfold gAt
        rw [List.getD_eq_getElem _ _ hi]
        exact List.getElem_mem hi)
      hF
  obtain ⟨_, _, _, _, _, _, _, _, _, A9⟩ :=
    loopF_main_weak gates (ioWires outL) _ _ _ _ _ _ (initDeps_length gates)
      (by simp) (init_inc_iff gates) hF
  have hsub0 : TSub W0 V := by
    intro x v hx
    by_cases hxo : x ∈ gates.map Gate.out
    · obtain ⟨g, hg, rfl⟩ := List.mem_map.mp hxo
      obtain ⟨j, hj, hgj⟩ := List.mem_iff_getElem.mp hg
      have : W0 g.out = none := by
        have := hfresh j hj
        rw [show gAt gates j = g by
          unfold gAt
          rw [List.getD_eq_getElem _ _ hj]
          exact hgj] at this
        exact this
      rw [this] at hx
      exact absurd hx (by simp)
    · rw [hVout x hxo]
      exact hx
  obtain ⟨W', hLrun, hWsub, hWpres⟩ := evalLayers_run ops gates V hVcons idxss L []
    W0 A1 A2 (fun i hi => (A5 i hi).1) A4
    (fun i _ => List.not_mem_nil i) hsub0
    (by
      intro r i hi w hw
      rcases Atopo r i hi w hw with hmem | hearlier
      · rw [List.nil_append] at hmem
        exact Or.inl (hW0in w hmem)
      · exact Or.inr hearlier)
    (by
      intro r w hw k hk
      rcases (A8 r w hw).2 k hk with hb | hb
      · rw [replicate_false_getD] at hb
        exact absurd hb (by simp)
      · exact Or.inr hb)
  have hagree : ∀ x ∈ ioWires outL, W' x = V x := by
    intro x hx
    have hnp : ∀ r : Nat, x ∉ (L.getD r default).prunes := by
      intro r hxp
      have := (A8 r x hxp).1
      have hx' : x ∉ ioWires outL := by simpa using this
      exact hx' hx
    rcases hVx : V x with _ | v
    · rcases hW'x : W' x with _ | u
      · rfl
      · have := hWsub x u hW'x
        rw [hVx] at this
        exact absurd this (by simp)
    · have hsrc : (W0 x).isSome = true ∨
          ∃ i ∈ idxss.flatten, (gAt gates i).out = x := by
        by_cases hxo : x ∈ gates.map Gate.out
        · obtain ⟨g, hg, rfl⟩ := List.mem_map.mp hxo
          obtain ⟨j, hj, hgj⟩ := List.mem_iff_getElem.mp hg
          right
          refine ⟨j, ?_, by
            unfold gAt
            rw [List.getD_eq_getElem _ _ hj]
            exact congrArg Gate.out hgj⟩
          have hincF : incF.getD j false = true :=
            all_getD_true hall (by rw [A9]; exact hj)
          rcases A6 j hincF with hb | hb
          · rw [replicate_false_getD] at hb
            exact absurd hb (by simp)
          · exact hb
        · left
          rw [← hVout x hxo, hVx]
          rfl
      have hW'some := hWpres x hsrc hnp
      rcases hW'x : W' x with _ | u
      · rw [hW'x] at hW'some
        exact absurd hW'some (by simp)
      · have := hWsub x u hW'x
        rw [hVx] at this
        rw [Option.some.injEq] at this
        rw [this]
  have hcoll := collectOutputs_congr outL W' V hagree
  show (do
      let ws ← seedInputs inL ins (fun _ => none)
      let ws' ← L.foldlM (evalLayer ops) ws
      collectOutputs ws' outL) =
    (do
      let ws ← seedInputs inL ins (fun _ => none)
      let ws' ← gates.foldlM
        (fun w g => (evalGate ops w g).map (fun p => updWire w p.1 p.2)) ws
      collectOutputs ws' outL)
  rw [hseed]
  show (do
      let ws' ← L.foldlM (evalLayer ops) W0
      collectOutputs ws' outL) =
    (do
      let ws' ← gates.foldlM
        (fun w g => (evalGate ops w g).map (fun p => updWire w p.1 p.2)) W0
      collectOutputs ws' outL)
  rw [hLrun, hrefrun]
  show collectOutputs W' outL = collectOutputs V outL
  exact hcoll

/-- C1, counterexample to the claim as stated: the gate list
[Copy 1→2, Copy 0→1] is single-assignment, acyclic (gate 1 feeds gate 0) and
accepted by the scheduler, but it is not in original-order-evaluable order:
layered evaluation succeeds while the reference interpreter, running the
gates in original order, hits a missing operand — so the two results
differ. -/
theorem claim_C1_counterexample :
    (([Gate.Unary UnaryOp.Copy 1 2, Gate.Unary UnaryOp.Copy 0 1].map Gate.out).Nodup) ∧
    (ioWires [⟨"x", 0, 1⟩]).Nodup ∧
    (∀ g ∈ [Gate.Unary UnaryOp.Copy 1 2, Gate.Unary UnaryOp.Copy 0 1],
      g.out ∉ ioWires [⟨"x", 0, 1⟩]) ∧
    separate_layers [Gate.Unary UnaryOp.Copy 1 2, Gate.Unary UnaryOp.Copy 0 1] 3
      (ioWires [⟨"x", 0, 1⟩]) (ioWires [⟨"main", 2, 1⟩]) =
      some [⟨[Gate.Unary UnaryOp.Copy 0 1], [0]⟩,
        ⟨[Gate.Unary UnaryOp.Copy 1 2], [1]⟩] ∧
    evalLC boolOps ⟨3, [⟨"x", 0, 1⟩], [⟨"main", 2, 1⟩],
        [⟨[Gate.Unary UnaryOp.Copy 0 1], [0]⟩,
          ⟨[Gate.Unary UnaryOp.Copy 1 2], [1]⟩]⟩
      (fun s => if s = "x" then some [true] else none) =
      .ok [("main", [true])] ∧
    refEval boolOps [Gate.Unary UnaryOp.Copy 1 2, Gate.Unary UnaryOp.Copy 0 1]
      [⟨"x", 0, 1⟩] [⟨"main", 2, 1⟩]
      (fun s => if s = "x" then some [true] else none) =
      .error (.missingWire 1) := by
  refine ⟨by decide, by decide, by decide, by decide, ?_, ?_⟩
  · decide
  · decide

/-- C1 witness instance: the spec's AND scenario, x=[true,false],
main=[x0 AND x1]. -/
theorem claim_C1_witness :
    evalLC boolOps ⟨3, [⟨"x", 0, 2⟩], [⟨"main", 2, 1⟩],
        [⟨[Gate.Binary BinaryOp.And 0 1 2], [0, 1]⟩]⟩
      (fun s => if s = "x" then some [true, false] else none) =
    refEval boolOps [Gate.Binary BinaryOp.And 0 1 2] [⟨"x", 0, 2⟩] [⟨"main", 2, 1⟩]
      (fun s => if s = "x" then some [true, false] else none) :=
  claim_C1_eval_matches_reference Bool boolOps [Gate.Binary BinaryOp.And 0 1 2] 3
    [⟨"x", 0, 2⟩] [⟨"main", 2, 1⟩] [⟨[Gate.Binary BinaryOp.And 0 1 2], [0, 1]⟩]
    (fun s => if s = "x" then some [true, false] else none)
    (by decide) (by decide) (by decide) (by decide) (by decide)
    (by
      intro lbl hl
      simp only [List.mem_singleton] at hl
      subst hl
      exact ⟨[true, false], rfl, rfl⟩)
